import Mathlib

/-!
Verification development for the tarpn node controller.

Shallow embedding of the NET/ROM codec (`tarpn/netrom/__init__.py`), the
NET/ROM routing table and network handler (`tarpn/netrom/network.py`), the
data-link inbound loop (`tarpn/ax25/datalink.py`) and the L3 priority queue
(`tarpn/network/__init__.py`).

Python byte strings are `List Nat` (each element a byte value), Python
strings are `List Nat` (Unicode code points), dictionaries are association
lists in insertion order (assignment replaces in place, new keys append at
the end), and Python float arithmetic on the small dyadic values appearing
in the routing quality computation is exact, so it is embedded as `ℚ`.
-/

namespace Tarpn

/- The rational arithmetic of route qualities is on tiny dyadic values;
allow the kernel-backed evaluation of concrete instances to unfold it. -/
attribute [local semireducible] Rat.mul Rat.add Rat.sub Rat.inv

/-- Python `str.strip()` whitespace set on the code points that can occur
in the strings handled here. Every such string is the result of an ASCII
decode (possibly with replacement), so its code points are either ASCII or
U+FFFD; of those, `str.strip()` removes exactly the ASCII whitespace
U+0009 to U+000D, U+001C to U+001F and U+0020 (U+FFFD is not whitespace,
and non-ASCII whitespace such as U+0085 cannot appear). -/
def pyWS (b : Nat) : Bool :=
  b == 32 || b == 9 || b == 10 || b == 11 || b == 12 || b == 13 ||
  b == 28 || b == 29 || b == 30 || b == 31

/-- Python `str.strip()`: drop leading and trailing whitespace. -/
def pyStrip (l : List Nat) : List Nat :=
  ((l.dropWhile pyWS).reverse.dropWhile pyWS).reverse

/-- Strip trailing space characters (used for space-padded callsigns). -/
def stripTrailingSpaces (l : List Nat) : List Nat :=
  (l.reverse.dropWhile (fun b => b == 32)).reverse

/-- Python `s.ljust(6, " ")`: pad on the right with spaces to length 6. -/
def ljust6 (l : List Nat) : List Nat :=
  l ++ List.replicate (6 - l.length) 32

/-- Python `bytes.decode("ASCII", "replace")`: non-ASCII bytes become the
replacement character U+FFFD. -/
def decodeAsciiReplace (bs : List Nat) : List Nat :=
  bs.map (fun b => if b < 128 then b else 0xFFFD)

/-- Python exceptions that the embedded code can raise. -/
inductive PyError where
  | assertionError
  | stopIteration
  | unicodeDecodeError
  | typeError
  | attributeError
deriving DecidableEq

/-- An AX.25 callsign: up to six ASCII characters (space padding removed)
plus a 4-bit SSID. Matches the `AX25Call` dataclass. -/
structure AX25Call where
  callsign : List Nat
  ssid : Nat
deriving DecidableEq

/-- Modelled from the spec: `AX25Call.write` of `tarpn/ax25/__init__.py` is
not under src/. The spec says a call is encoded as seven bytes, each ASCII
character left-shifted by one bit, the callsign space-padded to six
characters, with the 4-bit SSID in the shifted last byte. -/
def AX25Call.write (c : AX25Call) : List Nat :=
  (ljust6 c.callsign).map (fun b => (b <<< 1) % 256) ++ [(c.ssid % 16) <<< 1]

/-- Modelled from the spec: `parse_ax25_call` of `tarpn/ax25/__init__.py` is
not under src/. It consumes seven bytes from the iterator (raising
StopIteration, here `none`, when fewer remain), shifts each right by one
bit, strips the space padding of the callsign and keeps the 4-bit SSID. -/
def parse_ax25_call (bs : List Nat) : Option (AX25Call × List Nat) :=
  if 7 ≤ bs.length then
    some (⟨stripTrailingSpaces ((bs.take 6).map (fun b => (b % 256) >>> 1)),
           ((bs.getD 6 0 % 256) >>> 1) % 16⟩, bs.drop 7)
  else
    none

/-- One advertised destination of a NODES broadcast (`NodeDestination`). -/
structure NodeDestination where
  dest_node : AX25Call
  dest_alias : List Nat
  best_neighbor : AX25Call
  quality : Nat
deriving DecidableEq

/-- A NODES broadcast (`NetRomNodes`). -/
structure NetRomNodes where
  sending_alias : List Nat
  destinations : List NodeDestination
deriving DecidableEq

/-- Python `encode("ASCII")`: succeeds exactly when every code point is
ASCII, otherwise raises (here `none`). -/
def encodeAsciiOpt (cs : List Nat) : Option (List Nat) :=
  if cs.all (fun b => b < 128) then some cs else none

/-- One destination record as appended by the encoder loop: the written
destination call, the space-padded ASCII alias, the written best neighbor
and the quality byte (`quality & 0xff`). -/
def encodeNodeRecord (dest : NodeDestination) : Option (List Nat) :=
  match encodeAsciiOpt (ljust6 dest.dest_alias) with
  | none => none
  | some al =>
    some (dest.dest_node.write ++ al ++ dest.best_neighbor.write ++ [dest.quality % 256])

/-- The `for dest in nodes.destinations` loop of the encoder: append each
record in order; an encode error aborts the call. -/
def encodeNodeRecords : List NodeDestination → Option (List Nat)
  | [] => some []
  | d :: ds =>
    match encodeNodeRecord d with
    | none => none
    | some r =>
      match encodeNodeRecords ds with
      | none => none
      | some rest => some (r ++ rest)

/-- `encode_netrom_nodes` (tarpn/netrom/__init__.py): the 0xFF marker, the
space-padded sending alias encoded as ASCII, then one record per
destination in order. -/
def encode_netrom_nodes (nodes : NetRomNodes) : Option (List Nat) :=
  match encodeAsciiOpt (ljust6 nodes.sending_alias) with
  | none => none
  | some sa =>
    match encodeNodeRecords nodes.destinations with
    | none => none
    | some recs => some (0xFF :: (sa ++ recs))

lemma parse_ax25_call_drop {bs : List Nat} {c : AX25Call} {rest : List Nat}
    (h : parse_ax25_call bs = some (c, rest)) :
    rest = bs.drop 7 ∧ 7 ≤ bs.length := by
  unfold parse_ax25_call at h
  by_cases h7 : 7 ≤ bs.length
  · simp [h7] at h
    exact ⟨h.2.symm, h7⟩
  · simp [h7] at h

/-- One iteration body of the record loop shared by both `parse_netrom_nodes`
functions: destination call, six alias bytes via `islice`, neighbor call,
quality byte. `none` is the StopIteration that breaks the loop. The alias
decoding differs between the two copies and is supplied by `decodeAlias`. -/
def parseNodeRecordWith (decodeAlias : List Nat → List Nat) (bs : List Nat) :
    Option (NodeDestination × List Nat) :=
  match parse_ax25_call bs with
  | none => none
  | some (dest, bs1) =>
    match parse_ax25_call (bs1.drop 6) with
    | none => none
    | some (nbr, bs3) =>
      match bs3 with
      | [] => none
      | q :: bs4 => some (⟨dest, pyStrip (decodeAlias (bs1.take 6)), nbr, q⟩, bs4)

lemma parseNodeRecordWith_length {f : List Nat → List Nat} {bs : List Nat}
    {d : NodeDestination} {rest : List Nat}
    (h : parseNodeRecordWith f bs = some (d, rest)) : rest.length < bs.length := by
  unfold parseNodeRecordWith at h
  cases h1 : parse_ax25_call bs with
  | none => simp [h1] at h
  | some v1 =>
    obtain ⟨dest, bs1⟩ := v1
    obtain ⟨hd1, hl1⟩ := parse_ax25_call_drop h1
    cases h2 : parse_ax25_call (bs1.drop 6) with
    | none => simp [h1, h2] at h
    | some v2 =>
      obtain ⟨nbr, bs3⟩ := v2
      obtain ⟨hd2, hl2⟩ := parse_ax25_call_drop h2
      cases bs3 with
      | nil => simp [h1, h2] at h
      | cons q bs4 =>
        simp [h1, h2] at h
        obtain ⟨-, hrest⟩ := h
        subst hrest
        have hlen1 : bs1.length = bs.length - 7 := by rw [hd1]; simp
        have hlen2 : bs4.length + 1 = bs1.length - 6 - 7 := by
          have := congrArg List.length hd2
          simp at this
          omega
        omega

/-- The `while True` record loop of `parse_netrom_nodes` in
tarpn/netrom/__init__.py: StopIteration breaks the loop (a partial record
is discarded); the alias is decoded with errors="replace" and stripped.
Structural recursion on a fuel argument; every successfully parsed record
consumes at least one byte, so a fuel of the input length is enough
(`parseNodesLoopF_fuel` below shows fuel irrelevance past that bound). -/
def parseNodesLoopF : Nat → List Nat → List NodeDestination
  | 0, _ => []
  | fuel + 1, bs =>
    match parseNodeRecordWith decodeAsciiReplace bs with
    | none => []
    | some (d, rest) => d :: parseNodesLoopF fuel rest

/-- The record loop, run with enough fuel for its input. -/
def parseNodesLoop (bs : List Nat) : List NodeDestination :=
  parseNodesLoopF bs.length bs

lemma parseNodesLoopF_fuel : ∀ (fuel1 fuel2 : Nat) (bs : List Nat),
    bs.length ≤ fuel1 → bs.length ≤ fuel2 →
    parseNodesLoopF fuel1 bs = parseNodesLoopF fuel2 bs := by
  intro fuel1
  induction fuel1 with
  | zero =>
    intro fuel2 bs h1 h2
    have : bs = [] := List.length_eq_zero.mp (Nat.le_zero.mp h1)
    subst this
    cases fuel2 with
    | zero => rfl
    | succ m =>
      simp [parseNodesLoopF, parseNodeRecordWith, parse_ax25_call]
  | succ m ih =>
    intro fuel2 bs h1 h2
    cases fuel2 with
    | zero =>
      have : bs = [] := List.length_eq_zero.mp (Nat.le_zero.mp h2)
      subst this
      simp [parseNodesLoopF, parseNodeRecordWith, parse_ax25_call]
    | succ m2 =>
      simp only [parseNodesLoopF]
      cases hrec : parseNodeRecordWith decodeAsciiReplace bs with
      | none => rfl
      | some dr =>
        obtain ⟨d, rest⟩ := dr
        have hlen := parseNodeRecordWith_length hrec
        dsimp only
        rw [ih m2 rest (by omega) (by omega)]

/-- `parse_netrom_nodes` (tarpn/netrom/__init__.py): assert the 0xFF marker
(raising on a wrong marker or empty input, here `none`), decode the
six-byte sending alias with errors="replace" and strip it, then run the
record loop. -/
def parse_netrom_nodes (data : List Nat) : Option NetRomNodes :=
  match data with
  | [] => none
  | m :: rest =>
    if m = 0xFF then
      some ⟨pyStrip (decodeAsciiReplace (rest.take 6)), parseNodesLoop (rest.drop 6)⟩
    else
      none

/-- One iteration body of the record loop of the duplicate
`parse_netrom_nodes` in tarpn/netrom/network.py: the alias is decoded with
`decode("ASCII")` (strict), so a non-ASCII alias byte raises
UnicodeDecodeError, which is not caught by the `except StopIteration` and
propagates. `.ok none` is the StopIteration that breaks the loop. -/
def parseNodeRecordNw (bs : List Nat) :
    Except PyError (Option (NodeDestination × List Nat)) :=
  match parse_ax25_call bs with
  | none => .ok none
  | some (dest, bs1) =>
    if (bs1.take 6).all (fun b => b < 128) then
      match parse_ax25_call (bs1.drop 6) with
      | none => .ok none
      | some (nbr, bs3) =>
        match bs3 with
        | [] => .ok none
        | q :: bs4 => .ok (some (⟨dest, pyStrip (bs1.take 6), nbr, q⟩, bs4))
    else .error .unicodeDecodeError

lemma parseNodeRecordNw_length {bs : List Nat} {d : NodeDestination}
    {rest : List Nat} (h : parseNodeRecordNw bs = .ok (some (d, rest))) :
    rest.length < bs.length := by
  unfold parseNodeRecordNw at h
  cases h1 : parse_ax25_call bs with
  | none => simp [h1] at h
  | some v1 =>
    obtain ⟨dest, bs1⟩ := v1
    obtain ⟨hd1, hl1⟩ := parse_ax25_call_drop h1
    rw [h1] at h
    by_cases hA : (bs1.take 6).all (fun b => b < 128)
    · simp only [hA, if_pos] at h
      cases h2 : parse_ax25_call (bs1.drop 6) with
      | none => simp [h2] at h
      | some v2 =>
        obtain ⟨nbr, bs3⟩ := v2
        obtain ⟨hd2, hl2⟩ := parse_ax25_call_drop h2
        rw [h2] at h
        cases bs3 with
        | nil => simp at h
        | cons q bs4 =>
          simp at h
          obtain ⟨-, hrest⟩ := h
          subst hrest
          have hlen1 : bs1.length = bs.length - 7 := by rw [hd1]; simp
          have hlen2 : bs4.length + 1 = bs1.length - 6 - 7 := by
            have := congrArg List.length hd2
            simp at this
            omega
          omega
    · simp [hA] at h

/-- The `while True` record loop of the duplicate `parse_netrom_nodes` in
tarpn/netrom/network.py (fuel-structured like `parseNodesLoopF`). -/
def parseNodesLoopNwF : Nat → List Nat → Except PyError (List NodeDestination)
  | 0, _ => .ok []
  | fuel + 1, bs =>
    match parseNodeRecordNw bs with
    | .error e => .error e
    | .ok none => .ok []
    | .ok (some (d, rest)) =>
      match parseNodesLoopNwF fuel rest with
      | .error e => .error e
      | .ok ds => .ok (d :: ds)

/-- The network.py record loop, run with enough fuel for its input. -/
def parseNodesLoopNw (bs : List Nat) : Except PyError (List NodeDestination) :=
  parseNodesLoopNwF bs.length bs

/-- The duplicate `parse_netrom_nodes` defined in tarpn/netrom/network.py
(the copy actually called by `maybe_handle_special`): same structure, but
both alias decodes are strict ASCII and can raise UnicodeDecodeError. -/
def parse_netrom_nodes_nw (data : List Nat) : Except PyError NetRomNodes :=
  match data with
  | [] => .error .stopIteration
  | m :: rest =>
    if m = 0xFF then
      if (rest.take 6).all (fun b => b < 128) then
        match parseNodesLoopNw (rest.drop 6) with
        | .error e => .error e
        | .ok ds => .ok ⟨pyStrip (rest.take 6), ds⟩
      else .error .unicodeDecodeError
    else .error .assertionError

/-- `OpType` (tarpn/netrom/__init__.py). -/
inductive OpType where
  | Unknown
  | ConnectRequest
  | ConnectAcknowledge
  | DisconnectRequest
  | DisconnectAcknowledge
  | Information
  | InformationAcknowledge
deriving DecidableEq

/-- `OpType.create`: mask the low nibble; a value that is not a member
becomes `Unknown`. -/
def OpType.create (op_byte : Nat) : OpType :=
  match op_byte % 16 with
  | 1 => .ConnectRequest
  | 2 => .ConnectAcknowledge
  | 3 => .DisconnectRequest
  | 4 => .DisconnectAcknowledge
  | 5 => .Information
  | 6 => .InformationAcknowledge
  | _ => .Unknown

/-- The fixed NET/ROM header fields (`NetRomPacket` dataclass). -/
structure NetRomPacket where
  dest : AX25Call
  source : AX25Call
  ttl : Nat
  circuit_idx : Nat
  circuit_id : Nat
  tx_seq_num : Nat
  rx_seq_num : Nat
  op_byte : Nat
deriving DecidableEq

/-- The value returned by `parse_netrom_packet`: one of the dataclasses
`NetRomPacket`, `NetRomConnectRequest`, `NetRomConnectAck`, `NetRomInfo`. -/
inductive NetRomParsed where
  | packet (p : NetRomPacket)
  | connectRequest (p : NetRomPacket) (proposed_window_size : Nat)
      (origin_user origin_node : AX25Call)
  | connectAck (p : NetRomPacket) (accept_window_size : Nat)
  | info (p : NetRomPacket) (body : List Nat)
deriving DecidableEq

/-- The header fields common to every parsed variant. -/
def NetRomParsed.base : NetRomParsed → NetRomPacket
  | .packet p => p
  | .connectRequest p _ _ _ => p
  | .connectAck p _ => p
  | .info p _ => p

/-- `parse_netrom_packet` (tarpn/netrom/__init__.py). `.error` is an
uncaught StopIteration from a truncated input. The branch cascade on the
opcode has no arm for `Unknown`, so the Python function falls off the end
and returns None, embedded as `.ok none`. -/
def parse_netrom_packet (data : List Nat) : Except PyError (Option NetRomParsed) :=
  match parse_ax25_call data with
  | none => .error .stopIteration
  | some (origin, r1) =>
    match parse_ax25_call r1 with
    | none => .error .stopIteration
    | some (dest, r2) =>
      match r2 with
      | ttl :: circuit_idx :: circuit_id :: tx_seq_num :: rx_seq_num :: op_byte :: rest =>
        let base : NetRomPacket :=
          ⟨dest, origin, ttl, circuit_idx, circuit_id, tx_seq_num, rx_seq_num, op_byte⟩
        match OpType.create op_byte with
        | .ConnectRequest =>
          match rest with
          | [] => .error .stopIteration
          | pws :: r3 =>
            match parse_ax25_call r3 with
            | none => .error .stopIteration
            | some (origin_user, r4) =>
              match parse_ax25_call r4 with
              | none => .error .stopIteration
              | some (origin_node, _) =>
                .ok (some (.connectRequest base pws origin_user origin_node))
        | .ConnectAcknowledge =>
          match rest with
          | [] => .error .stopIteration
          | aws :: _ => .ok (some (.connectAck base aws))
        | .Information => .ok (some (.info base rest))
        | .InformationAcknowledge => .ok (some (.packet base))
        | .DisconnectRequest => .ok (some (.packet base))
        | .DisconnectAcknowledge => .ok (some (.packet base))
        | .Unknown => .ok none
      | _ => .error .stopIteration

/-- What `NetRomNetwork.handle` does with an inbound L3 payload. -/
inductive HandleAction where
  | deliver (p : NetRomParsed)
  | forward (p : NetRomParsed)
  | raised (e : PyError)
deriving DecidableEq

/-- `NetRomNetwork.handle` (tarpn/netrom/network.py): parse, then feed the
state machine when the destination equals the configured node call
(`deliver`), otherwise pass the packet to `write_packet` (`forward`).
`node_call` is the already-parsed configured call. When the parse returns
None (unknown opcode) the attribute access `netrom_packet.dest` raises. -/
def handle (node_call : AX25Call) (data : List Nat) : HandleAction :=
  match parse_netrom_packet data with
  | .error e => .raised e
  | .ok none => .raised .attributeError
  | .ok (some p) => if p.base.dest = node_call then .deliver p else .forward p

/-- Dictionary lookup on an insertion-ordered association list. -/
def lookupA {β : Type} (k : AX25Call) : List (AX25Call × β) → Option β
  | [] => none
  | (k1, v) :: rest => if k1 = k then some v else lookupA k rest

/-- Dictionary assignment: replace in place if the key exists, else append. -/
def insertA {β : Type} (k : AX25Call) (v : β) :
    List (AX25Call × β) → List (AX25Call × β)
  | [] => [(k, v)]
  | (k1, v1) :: rest =>
    if k1 = k then (k, v) :: rest else (k1, v1) :: insertA k v rest

/-- `Neighbor` dataclass. -/
structure Neighbor where
  call : AX25Call
  port : Nat
  quality : Nat
deriving DecidableEq

/-- `Route` dataclass. The quality is a Python float after an update from a
NODES record (the division is float division); every value it can take here
is a small dyadic rational, on which float arithmetic is exact, so the
field is embedded as `ℚ`. -/
structure Route where
  dest : AX25Call
  next_hop : AX25Call
  quality : ℚ
  obsolescence : ℤ
deriving DecidableEq

/-- `Destination` dataclass. -/
structure Destination where
  node_call : AX25Call
  node_alias : List Nat
  neighbor_map : List (AX25Call × Route)
deriving DecidableEq

/-- `RoutingTable` dataclass with its configuration fields. -/
structure RoutingTable where
  node_alias : List Nat
  our_calls : List AX25Call
  neighbors : List (AX25Call × Neighbor)
  destinations : List (AX25Call × Destination)
  default_obs : ℤ
  default_quality : Nat
  min_quality : Nat
  min_obs : ℤ
deriving DecidableEq

/-- A fresh `RoutingTable(node_alias)` with the dataclass defaults
default_obs 100, default_quality 255, min_quality 50, min_obs 4. -/
def initialTable (node_alias : List Nat) : RoutingTable :=
  ⟨node_alias, [], [], [], 100, 255, 50, 4⟩

/-- The quality computed for an advertised route in `update_routes`:
`(destination.quality * neighbor.quality + 128.) / 256.`. The Python code
uses float constants; the values are exact in floating point, so the exact
rational value is the float result. -/
def candidateQuality (q nq : Nat) : ℚ :=
  ((q : ℚ) * (nq : ℚ) + 128) / 256

/-- The body of the `for destination in nodes.destinations` loop of
`update_routes`, acting on the live `self.destinations` dictionary. -/
def updateRouteStep (our_calls : List AX25Call) (min_quality : Nat)
    (default_obs : ℤ) (neighbor : Neighbor)
    (dests : List (AX25Call × Destination)) (destination : NodeDestination) :
    List (AX25Call × Destination) :=
  let route_quality : ℚ :=
    if destination.best_neighbor ∈ our_calls then 0
    else candidateQuality destination.quality neighbor.quality
  if (min_quality : ℚ) < route_quality then
    let new_dest := (lookupA destination.dest_node dests).getD
      ⟨destination.dest_node, destination.dest_alias, []⟩
    let r0 := (lookupA neighbor.call new_dest.neighbor_map).getD
      ⟨destination.dest_node, destination.best_neighbor, route_quality, default_obs⟩
    let new_route : Route := { r0 with quality := route_quality, obsolescence := default_obs }
    insertA destination.dest_node
      { new_dest with neighbor_map := insertA neighbor.call new_route new_dest.neighbor_map }
      dests
  else dests

/-- `RoutingTable.update_routes`: get or create the neighbor entry (default
quality 255), install the direct route to the sender with the default
quality and obsolescence, then process each advertised destination. -/
def update_routes (t : RoutingTable) (heard_from : AX25Call)
    (heard_on_port : Nat) (nodes : NetRomNodes) : RoutingTable :=
  let neighbor := (lookupA heard_from t.neighbors).getD
    ⟨heard_from, heard_on_port, t.default_quality⟩
  let neighbors := insertA heard_from neighbor t.neighbors
  let dest0 := (lookupA heard_from t.destinations).getD
    ⟨heard_from, nodes.sending_alias, []⟩
  let dest := { dest0 with neighbor_map :=
    (insertA heard_from ⟨heard_from, heard_from, (t.default_quality : ℚ), t.default_obs⟩
      dest0.neighbor_map) }
  let dests1 := insertA heard_from dest t.destinations
  let dests2 := nodes.destinations.foldl
    (updateRouteStep t.our_calls t.min_quality t.default_obs neighbor) dests1
  { t with neighbors := neighbors, destinations := dests2 }

/-- The per-destination effect of one prune pass: decrement every obsolescence
and delete the routes that reached zero or below. -/
def pruneDest (d : Destination) : Destination :=
  { d with neighbor_map := d.neighbor_map.filterMap (fun kr =>
      let r : Route := { kr.2 with obsolescence := kr.2.obsolescence - 1 }
      if r.obsolescence ≤ 0 then none else some (kr.1, r)) }

/-- `RoutingTable.prune_routes`. The source iterates over a snapshot of the
dictionary items, mutating each destination in place and deleting emptied
destinations (and their neighbor entries) during the same pass; since each
iteration touches only its own key, the net effect on the insertion-ordered
dictionaries is the filter below. -/
def prune_routes (t : RoutingTable) : RoutingTable :=
  let pruned := t.destinations.map (fun cd => (cd.1, pruneDest cd.2))
  let removed := (pruned.filter (fun cd => cd.2.neighbor_map.isEmpty)).map Prod.fst
  { t with
    destinations := pruned.filter (fun cd => !cd.2.neighbor_map.isEmpty),
    neighbors := t.neighbors.filter (fun kn => !(removed.contains kn.1)) }

/-- The routing tables reachable from a fresh table by the operations the
network layer performs on it: `bind_data_link` appending one of our calls,
`update_routes`, and `prune_routes`. -/
inductive Reachable : RoutingTable → Prop where
  | init (node_alias : List Nat) : Reachable (initialTable node_alias)
  | bind (t : RoutingTable) (c : AX25Call) :
      Reachable t → Reachable { t with our_calls := t.our_calls ++ [c] }
  | update (t : RoutingTable) (hf : AX25Call) (port : Nat) (nodes : NetRomNodes) :
      Reachable t → Reachable (update_routes t hf port nodes)
  | prune (t : RoutingTable) : Reachable t → Reachable (prune_routes t)

/-- Structural equality on `Except`, needed to state concrete evaluations. -/
instance exceptDecEq {ε α : Type} [DecidableEq ε] [DecidableEq α] :
    DecidableEq (Except ε α) := fun a b =>
  match a, b with
  | .ok x, .ok y =>
    if h : x = y then isTrue (by rw [h]) else isFalse (by simp [h])
  | .error x, .error y =>
    if h : x = y then isTrue (by rw [h]) else isFalse (by simp [h])
  | .ok _, .error _ => isFalse (by simp)
  | .error _, .ok _ => isFalse (by simp)

/-! Association list lemmas. -/

lemma lookupA_insertA_self {β : Type} (k : AX25Call) (v : β)
    (l : List (AX25Call × β)) : lookupA k (insertA k v l) = some v := by
  induction l with
  | nil => simp [insertA, lookupA]
  | cons hd tl ih =>
    obtain ⟨k1, v1⟩ := hd
    by_cases h : k1 = k
    · simp [insertA, h, lookupA]
    · simp [insertA, h, lookupA, ih]

lemma mem_insertA {β : Type} {k : AX25Call} {v : β}
    {l : List (AX25Call × β)} {p : AX25Call × β}
    (hp : p ∈ insertA k v l) : p = (k, v) ∨ p ∈ l := by
  induction l with
  | nil => simpa [insertA] using hp
  | cons hd tl ih =>
    obtain ⟨k1, v1⟩ := hd
    by_cases h : k1 = k
    · rw [insertA, if_pos h] at hp
      rcases List.mem_cons.mp hp with h1 | h1
      · exact Or.inl h1
      · exact Or.inr (List.mem_cons_of_mem _ h1)
    · rw [insertA, if_neg h] at hp
      rcases List.mem_cons.mp hp with h1 | h1
      · exact Or.inr (by rw [h1]; exact List.mem_cons_self _ _)
      · rcases ih h1 with h2 | h2
        · exact Or.inl h2
        · exact Or.inr (List.mem_cons_of_mem _ h2)

lemma lookupA_mem {β : Type} {k : AX25Call} {v : β}
    {l : List (AX25Call × β)} (h : lookupA k l = some v) : (k, v) ∈ l := by
  induction l with
  | nil => simp [lookupA] at h
  | cons hd tl ih =>
    obtain ⟨k1, v1⟩ := hd
    by_cases hk : k1 = k
    · subst hk
      simp only [lookupA, if_true, eq_self_iff_true, Option.some.injEq] at h
      subst h
      exact List.mem_cons_self _ _
    · rw [lookupA, if_neg hk] at h
      exact List.mem_cons_of_mem _ (ih h)

/-- The route stored for destination `dest` under the neighbor key `via`. -/
def routeEntry (t : RoutingTable) (dest via : AX25Call) : Option Route :=
  (lookupA dest t.destinations).bind (fun d => lookupA via d.neighbor_map)

/-! Concrete calls and tables for the closed evaluations. -/

/-- The callsign X (the neighbor a NODES broadcast is heard from). -/
def callX : AX25Call := ⟨[88], 0⟩

/-- The callsign Y (an advertised destination). -/
def callY : AX25Call := ⟨[89], 0⟩

/-- The callsign Z (the advertised best neighbor of Y). -/
def callZ : AX25Call := ⟨[90], 0⟩

/-- The table after hearing an empty NODES broadcast from X on port 0: X is
a neighbor with the default quality 255 and has a direct route with
obsolescence 100. -/
def tableX : RoutingTable := update_routes (initialTable []) callX 0 ⟨[], []⟩

/-- A NODES broadcast advertising destination Y with best neighbor Z at
quality 192. -/
def nodesYviaZ : NetRomNodes := ⟨[], [⟨callY, [], callZ, 192⟩]⟩

/-! ## C1: quality computed for an advertised route -/

/-- C1 (amended): for a NODES record whose best neighbor is not one of our
calls, heard from a neighbor already stored with quality nq, update_routes
installs the route for the advertised destination under the sending
neighbor with quality exactly (q × nq + 128) / 256 as a rational (the
Python code divides floats, exactly representable here, and never rounds to
an integer) and obsolescence reset to the default, whenever that quality
clears the minimum. -/
theorem update_routes_installs_exact_quality
    (t : RoutingTable) (hf : AX25Call) (port : Nat) (sa : List Nat)
    (d : NodeDestination) (nb : Neighbor)
    (hnb : lookupA hf t.neighbors = some nb)
    (hcall : nb.call = hf)
    (hown : d.best_neighbor ∉ t.our_calls)
    (hq : (t.min_quality : ℚ) < candidateQuality d.quality nb.quality) :
    (routeEntry (update_routes t hf port ⟨sa, [d]⟩) d.dest_node hf).map Route.quality =
      some (candidateQuality d.quality nb.quality) ∧
    (routeEntry (update_routes t hf port ⟨sa, [d]⟩) d.dest_node hf).map Route.obsolescence =
      some t.default_obs := by
  have hstep : update_routes t hf port ⟨sa, [d]⟩ =
      { t with
        neighbors := insertA hf nb t.neighbors,
        destinations := updateRouteStep t.our_calls t.min_quality t.default_obs nb
          (insertA hf
            { ((lookupA hf t.destinations).getD ⟨hf, sa, []⟩) with neighbor_map :=
              (insertA hf ⟨hf, hf, (t.default_quality : ℚ), t.default_obs⟩
                ((lookupA hf t.destinations).getD ⟨hf, sa, []⟩).neighbor_map) }
            t.destinations) d } := by
    simp [update_routes, hnb]
  rw [hstep]
  simp only [updateRouteStep, if_neg hown, if_pos hq, routeEntry, hcall]
  rw [lookupA_insertA_self]
  simp only [Option.some_bind]
  rw [lookupA_insertA_self]
  exact ⟨rfl, rfl⟩

/-- C1 witness: the scenario of the claim, with q = 192 and stored neighbor
quality 255, evaluated on a concrete table. -/
theorem update_routes_installs_exact_quality_witness :
    (routeEntry (update_routes tableX callX 0 nodesYviaZ) callY callX).map Route.quality =
      some (candidateQuality 192 255) := by
  have h := update_routes_installs_exact_quality tableX callX 0 []
    ⟨callY, [], callZ, 192⟩ ⟨callX, 0, 255⟩ (by decide) (by decide) (by decide) (by decide)
  exact h.1

/-- C1 counterexample: with q = 192 and neighbor quality 255 the installed
quality is the non-integer 767/4 = 191.75, not 192 (and not any integer, so
not the claimed integer arithmetic with rounding); obsolescence is 100. -/
theorem update_routes_quality_not_integer_cex :
    routeEntry (update_routes tableX callX 0 nodesYviaZ) callY callX =
      some ⟨callY, callZ, 767/4, 100⟩ ∧
    (767/4 : ℚ) ≠ 192 ∧ (767/4 : ℚ).den ≠ 1 := by decide

/-! ## C2: forwarding in handle does not touch the TTL -/

/-- C2 (amended): a packet that parses and whose destination differs from
the configured node call is handed to write_packet exactly as parsed:
handle neither decrements the TTL nor drops packets whose TTL is 0. -/
theorem handle_forwards_packet_unchanged
    (node_call : AX25Call) (data : List Nat) (p : NetRomParsed)
    (hp : parse_netrom_packet data = .ok (some p))
    (hd : p.base.dest ≠ node_call) :
    handle node_call data = .forward p := by
  simp [handle, hp, hd]

/-- A NET/ROM Information packet from A to B with TTL 0 (header bytes after
the two encoded calls: ttl 0, circuit 0/0, tx 0, rx 0, op 5). -/
def ttlZeroData : List Nat :=
  [130,64,64,64,64,64,0] ++ [132,64,64,64,64,64,0] ++ [0,0,0,0,0,5]

/-- The parse of `ttlZeroData`. -/
def ttlZeroPacket : NetRomParsed :=
  .info ⟨⟨[66],0⟩, ⟨[65],0⟩, 0, 0, 0, 0, 0, 5⟩ []

/-- C2 witness: the theorem applied to the TTL-0 packet addressed to B,
handled by a node whose call is C. -/
theorem handle_forwards_packet_unchanged_witness :
    handle ⟨[67],0⟩ ttlZeroData = .forward ttlZeroPacket :=
  handle_forwards_packet_unchanged ⟨[67],0⟩ ttlZeroData ttlZeroPacket
    (by decide) (by decide)

/-- C2 counterexample: a packet with TTL 0 not addressed to us is forwarded
by handle, with its TTL still 0, instead of being dropped or having its TTL
decremented. -/
theorem handle_ttl_zero_forwarded_cex :
    handle ⟨[67],0⟩ ttlZeroData = .forward ttlZeroPacket ∧
    ttlZeroPacket.base.ttl = 0 := by decide

/-! ## C4: unknown opcode makes parse_netrom_packet return None -/

/-- A NET/ROM header from A to B whose op byte is 0x07, an unknown opcode. -/
def unknownOpData : List Nat :=
  [130,64,64,64,64,64,0] ++ [132,64,64,64,64,64,0] ++ [0,0,0,0,0,7]

/-- C4: `OpType.create` maps the unknown opcode 7 to `Unknown`, but
`parse_netrom_packet` has no branch for `Unknown`, falls off the end of the
function and returns None (embedded `.ok none`): the parse result is
absent, not a packet carrying the raw op byte. -/
theorem parse_netrom_packet_unknown_opcode_none :
    parse_netrom_packet unknownOpData = .ok none ∧
    OpType.create 7 = .Unknown := by decide

/-! ## C8: prune decay timing -/

set_option maxRecDepth 8000 in
/-- C8 (amended): a route installed with obsolescence 100 and never
refreshed survives 99 prune passes (with obsolescence 1 after the 99th) and
is removed by the 100th prune_routes call, which also removes the then
empty destination and its neighbor entry in the same pass. -/
theorem prune_decay_route_and_destination :
    routeEntry (prune_routes^[99] tableX) callX callX = some ⟨callX, callX, 255, 1⟩ ∧
    (prune_routes^[100] tableX).destinations = [] ∧
    (prune_routes^[100] tableX).neighbors = [] := by decide

set_option maxRecDepth 8000 in
/-- C8 counterexample: the claim would have the destination still present
after the 100th prune (to be removed on the 101st); in fact the 100th
prune already removed it. -/
theorem prune_decay_destination_at_100_cex :
    lookupA callX (prune_routes^[100] tableX).destinations = none := by decide

/-! ## C10: an existing neighbor entry is not touched by update_routes -/

/-- C10: when the sender of a NODES broadcast is already in the neighbors
map, update_routes keeps its stored quality and port unchanged (the entry
is re-inserted as is); the default quality 255 and the heard-on port are
assigned only when the entry is first created. -/
theorem update_routes_existing_neighbor_unchanged
    (t : RoutingTable) (hf : AX25Call) (port : Nat) (nodes : NetRomNodes) :
    (∀ nb, lookupA hf t.neighbors = some nb →
      lookupA hf (update_routes t hf port nodes).neighbors = some nb) ∧
    (lookupA hf t.neighbors = none →
      lookupA hf (update_routes t hf port nodes).neighbors =
        some ⟨hf, port, t.default_quality⟩) := by
  constructor
  · intro nb hnb
    simp [update_routes, hnb, lookupA_insertA_self]
  · intro hnone
    simp [update_routes, hnone, lookupA_insertA_self]

/-- C10 witness: X is stored with port 0 and quality 255; an update heard
on port 5 leaves the stored entry untouched. -/
theorem update_routes_existing_neighbor_unchanged_witness :
    lookupA callX (update_routes tableX callX 5 ⟨[], []⟩).neighbors =
      some ⟨callX, 0, 255⟩ :=
  (update_routes_existing_neighbor_unchanged tableX callX 5 ⟨[], []⟩).1
    ⟨callX, 0, 255⟩ (by decide)

/-! ## C6: quality and obsolescence bounds on every stored route -/

/-- A route respects the configured bounds: quality strictly above the
minimum, obsolescence between 1 and the default. -/
def RouteOK (minQ : Nat) (defObs : ℤ) (r : Route) : Prop :=
  (minQ : ℚ) < r.quality ∧ 1 ≤ r.obsolescence ∧ r.obsolescence ≤ defObs

/-- Every route stored anywhere in the table respects the bounds. -/
def TableOK (t : RoutingTable) : Prop :=
  ∀ p ∈ t.destinations, ∀ q ∈ p.2.neighbor_map,
    RouteOK t.min_quality t.default_obs q.2

lemma updateRouteStep_OK {minQ : Nat} {defObs : ℤ} (h1 : 1 ≤ defObs)
    {oc : List AX25Call} {nb : Neighbor}
    {dests : List (AX25Call × Destination)} {d : NodeDestination}
    (hOK : ∀ p ∈ dests, ∀ q ∈ p.2.neighbor_map, RouteOK minQ defObs q.2) :
    ∀ p ∈ updateRouteStep oc minQ defObs nb dests d,
      ∀ q ∈ p.2.neighbor_map, RouteOK minQ defObs q.2 := by
  intro p hp q hq
  simp only [updateRouteStep] at hp
  by_cases hg : (minQ : ℚ) <
      (if d.best_neighbor ∈ oc then 0 else candidateQuality d.quality nb.quality)
  · rw [if_pos hg] at hp
    rcases mem_insertA hp with h | h
    · subst h
      simp only at hq
      rcases mem_insertA hq with h2 | h2
      · subst h2
        refine ⟨hg, h1, le_refl _⟩
      · cases hlk : lookupA d.dest_node dests with
        | none => simp [hlk] at h2
        | some od =>
          rw [hlk] at h2
          exact hOK (d.dest_node, od) (lookupA_mem hlk) q h2
    · exact hOK p h q hq
  · rw [if_neg hg] at hp
    exact hOK p hp q hq

lemma foldl_updateRouteStep_OK {minQ : Nat} {defObs : ℤ} (h1 : 1 ≤ defObs)
    {oc : List AX25Call} {nb : Neighbor} (ds : List NodeDestination) :
    ∀ dests : List (AX25Call × Destination),
      (∀ p ∈ dests, ∀ q ∈ p.2.neighbor_map, RouteOK minQ defObs q.2) →
      ∀ p ∈ ds.foldl (updateRouteStep oc minQ defObs nb) dests,
        ∀ q ∈ p.2.neighbor_map, RouteOK minQ defObs q.2 := by
  induction ds with
  | nil => intro dests hOK; simpa using hOK
  | cons d ds ih =>
    intro dests hOK
    simp only [List.foldl_cons]
    exact ih _ (updateRouteStep_OK h1 hOK)

lemma update_routes_OK {t : RoutingTable} {hf : AX25Call} {port : Nat}
    {nodes : NetRomNodes} (h1 : 1 ≤ t.default_obs)
    (h2 : (t.min_quality : ℚ) < (t.default_quality : ℚ))
    (hOK : TableOK t) : TableOK (update_routes t hf port nodes) := by
  intro p hp q hq
  simp only [update_routes] at hp
  have hbase : ∀ p ∈ insertA hf
      { ((lookupA hf t.destinations).getD ⟨hf, nodes.sending_alias, []⟩) with
        neighbor_map :=
          (insertA hf
            ⟨hf, hf, (t.default_quality : ℚ), t.default_obs⟩
            ((lookupA hf t.destinations).getD
              ⟨hf, nodes.sending_alias, []⟩).neighbor_map) }
      t.destinations,
      ∀ q ∈ p.2.neighbor_map, RouteOK t.min_quality t.default_obs q.2 := by
    intro p hp q hq
    rcases mem_insertA hp with h | h
    · subst h
      simp only at hq
      rcases mem_insertA hq with h3 | h3
      · subst h3
        exact ⟨h2, h1, le_refl _⟩
      · cases hlk : lookupA hf t.destinations with
        | none => simp [hlk] at h3
        | some od =>
          rw [hlk] at h3
          exact hOK (hf, od) (lookupA_mem hlk) q h3
    · exact hOK p h q hq
  exact foldl_updateRouteStep_OK h1 nodes.destinations _ hbase p hp q hq

lemma prune_routes_OK {t : RoutingTable} (hOK : TableOK t) :
    TableOK (prune_routes t) := by
  intro p hp q hq
  simp only [prune_routes] at hp
  have hp2 := List.mem_filter.mp hp
  obtain ⟨cd, hcd, hmap⟩ := List.mem_map.mp hp2.1
  subst hmap
  simp only [pruneDest] at hq
  obtain ⟨kr, hkr, hg⟩ := List.mem_filterMap.mp hq
  by_cases hz : kr.2.obsolescence - 1 ≤ 0
  · simp only [hz, if_pos] at hg
    cases hg
  · simp only [hz, if_neg, not_false_iff] at hg
    obtain ⟨h3a, h3b, h3c⟩ := hOK cd hcd kr hkr
    have hqe : q = (kr.1, { kr.2 with obsolescence := kr.2.obsolescence - 1 }) :=
      (Option.some.inj hg).symm
    subst hqe
    simp only [RouteOK, prune_routes]
    exact ⟨h3a, by omega, by omega⟩

lemma reachable_aux {t : RoutingTable} (h : Reachable t) :
    t.min_quality = 50 ∧ t.default_obs = 100 ∧ t.default_quality = 255 ∧
      TableOK t := by
  induction h with
  | init a =>
    refine ⟨rfl, rfl, rfl, ?_⟩
    intro p hp
    simp [initialTable] at hp
  | bind t c _ ih =>
    refine ⟨ih.1, ih.2.1, ih.2.2.1, ?_⟩
    intro p hp q hq
    exact ih.2.2.2 p hp q hq
  | update t hf port nodes _ ih =>
    obtain ⟨e1, e2, e3, hOK⟩ := ih
    refine ⟨e1, e2, e3, ?_⟩
    exact update_routes_OK (by rw [e2]; norm_num)
      (by rw [e1, e3]; norm_num) hOK
  | prune t _ ih =>
    obtain ⟨e1, e2, e3, hOK⟩ := ih
    exact ⟨e1, e2, e3, prune_routes_OK hOK⟩

/-- C6: in every routing table reachable from a fresh one by update and
prune operations, every stored route has quality strictly above the
minimum quality 50 and obsolescence in the interval from 1 to the default
100. -/
theorem reachable_routes_quality_obsolescence (t : RoutingTable)
    (h : Reachable t) :
    ∀ p ∈ t.destinations, ∀ q ∈ p.2.neighbor_map,
      (50 : ℚ) < q.2.quality ∧ 1 ≤ q.2.obsolescence ∧ q.2.obsolescence ≤ 100 := by
  obtain ⟨e1, e2, e3, hOK⟩ := reachable_aux h
  intro p hp q hq
  have := hOK p hp q hq
  rw [RouteOK, e1, e2] at this
  exact_mod_cast this

/-- C6 witness: the invariant evaluated on the route for Y via X in the
concrete reachable table obtained from two update_routes calls. -/
theorem reachable_routes_quality_obsolescence_witness :
    (50 : ℚ) < ((767:ℚ)/4) ∧ (1:ℤ) ≤ 100 ∧ (100:ℤ) ≤ 100 :=
  reachable_routes_quality_obsolescence (update_routes tableX callX 0 nodesYviaZ)
    (Reachable.update _ _ _ _ (Reachable.update _ _ _ _ (Reachable.init [])))
    (callY, ⟨callY, [], [(callX, ⟨callY, callZ, 767/4, 100⟩)]⟩) (by decide)
    (callX, ⟨callY, callZ, 767/4, 100⟩) (by decide)

/-! ## C9: alias decoding tolerance -/

/-- C9 (amended): the codec `parse_netrom_nodes` of tarpn/netrom/__init__.py
returns a NetRomNodes value for every body carrying the 0xFF marker, with
non-ASCII alias bytes replaced by U+FFFD; concretely a six-byte 0x80 alias
decodes to six replacement characters. -/
theorem parse_nodes_codec_total_with_replacement :
    (∀ rest : List Nat, (parse_netrom_nodes (0xFF :: rest)).isSome = true) ∧
    parse_netrom_nodes (0xFF :: [0x80, 0x80, 0x80, 0x80, 0x80, 0x80]) =
      some ⟨List.replicate 6 0xFFFD, []⟩ := by
  constructor
  · intro rest
    simp [parse_netrom_nodes]
  · decide

/-- C9 counterexample: the duplicate `parse_netrom_nodes` defined in
tarpn/netrom/network.py, the copy `maybe_handle_special` actually calls,
decodes aliases with strict ASCII and raises UnicodeDecodeError on the same
body instead of returning a value. -/
theorem parse_nodes_network_strict_raises_cex :
    parse_netrom_nodes_nw (0xFF :: [0x80, 0x80, 0x80, 0x80, 0x80, 0x80]) =
      .error .unicodeDecodeError := by decide

/-! ## C5: NODES codec round trip -/

lemma shift_unshift {b : Nat} (h : b < 128) : ((b <<< 1) % 256 % 256) >>> 1 = b := by
  simp only [Nat.shiftLeft_eq, Nat.shiftRight_eq_div_pow, Nat.pow_one]
  omega

lemma ssid_roundtrip {s : Nat} (h : s < 16) :
    ((((s % 16) <<< 1) % 256) >>> 1) % 16 = s := by
  simp only [Nat.shiftLeft_eq, Nat.shiftRight_eq_div_pow, Nat.pow_one]
  omega

lemma dropWhile_replicate_space {p : Nat → Bool} (hp : p 32 = true)
    (k : Nat) (t : List Nat) :
    List.dropWhile p (List.replicate k 32 ++ t) = List.dropWhile p t := by
  induction k with
  | zero => simp
  | succ m ih => simpa [List.replicate_succ, List.dropWhile_cons, hp] using ih

lemma stripTrailingSpaces_pad {cs : List Nat}
    (h : stripTrailingSpaces cs = cs) (k : Nat) :
    stripTrailingSpaces (cs ++ List.replicate k 32) = cs := by
  unfold stripTrailingSpaces at h ⊢
  rw [List.reverse_append, List.reverse_replicate,
    dropWhile_replicate_space (by rfl)]
  exact h

lemma pyStrip_parts {al : List Nat} (h : pyStrip al = al) :
    List.dropWhile pyWS al = al ∧
    List.dropWhile pyWS al.reverse = al.reverse := by
  unfold pyStrip at h
  have hlen1 : ((al.dropWhile pyWS).reverse.dropWhile pyWS).length ≤
      (al.dropWhile pyWS).length := by
    have := (List.dropWhile_suffix (l := (al.dropWhile pyWS).reverse) pyWS).length_le
    simpa using this
  have hlen2 : (al.dropWhile pyWS).length ≤ al.length :=
    (List.dropWhile_suffix pyWS).length_le
  have hlen0 : ((al.dropWhile pyWS).reverse.dropWhile pyWS).length = al.length := by
    have := congrArg List.length h
    simpa using this
  have heq1 : List.dropWhile pyWS al = al :=
    (List.dropWhile_suffix pyWS).eq_of_length (by omega)
  refine ⟨heq1, ?_⟩
  rw [heq1] at h
  have := congrArg List.reverse h
  simpa using this

lemma pyStrip_pad {al : List Nat} (h : pyStrip al = al) (k : Nat) :
    pyStrip (al ++ List.replicate k 32) = al := by
  obtain ⟨hl, hr⟩ := pyStrip_parts h
  cases al with
  | nil =>
    unfold pyStrip
    have h0 : List.dropWhile pyWS (List.replicate k 32) = [] := by
      have := dropWhile_replicate_space (p := pyWS) (by rfl) k []
      simpa using this
    simp [h0]
  | cons a t =>
    have ha : pyWS a = false := by
      by_contra hc
      have hc2 : pyWS a = true := by
        cases hpa : pyWS a with
        | false => exact absurd hpa hc
        | true => rfl
      rw [List.dropWhile_cons, hc2] at hl
      simp only [if_true] at hl
      have := congrArg List.length hl
      have h2 := (List.dropWhile_suffix (l := t) pyWS).length_le
      simp at this
      omega
    unfold pyStrip
    rw [List.cons_append, List.dropWhile_cons, ha]
    simp only [Bool.false_eq_true, if_false]
    have hrev : (a :: (t ++ List.replicate k 32)).reverse =
        List.replicate k 32 ++ (a :: t).reverse := by
      simp [List.reverse_cons, List.reverse_append, List.reverse_replicate,
        List.append_assoc]
    rw [hrev, dropWhile_replicate_space (by rfl), hr]
    simp

lemma map_eq_self_of {f : Nat → Nat} {l : List Nat} (h : ∀ b ∈ l, f b = b) :
    l.map f = l := by
  induction l with
  | nil => rfl
  | cons a t ih =>
    simp only [List.map_cons, h a (List.mem_cons_self _ _)]
    rw [ih (fun x hx => h x (List.mem_cons_of_mem _ hx))]

lemma decodeAsciiReplace_ascii {bs : List Nat} (h : ∀ b ∈ bs, b < 128) :
    decodeAsciiReplace bs = bs := by
  unfold decodeAsciiReplace
  induction bs with
  | nil => rfl
  | cons b t ih =>
    have hb := h b (List.mem_cons_self _ _)
    simp only [List.map_cons, if_pos hb]
    rw [ih (fun x hx => h x (List.mem_cons_of_mem _ hx))]

lemma ljust6_length {l : List Nat} (h : l.length ≤ 6) : (ljust6 l).length = 6 := by
  simp [ljust6]
  omega

lemma mem_ljust6 {l : List Nat} {b : Nat} (hb : b ∈ ljust6 l)
    (h : ∀ x ∈ l, x < 128) : b < 128 := by
  rcases List.mem_append.mp hb with h1 | h1
  · exact h b h1
  · have := List.eq_of_mem_replicate h1
    omega

/-- A call the spec-modelled seven-byte encoding round-trips: at most six
ASCII characters without trailing spaces, and a four-bit SSID. -/
def wfCall (c : AX25Call) : Prop :=
  c.callsign.length ≤ 6 ∧ (∀ b ∈ c.callsign, b < 128) ∧
  stripTrailingSpaces c.callsign = c.callsign ∧ c.ssid < 16

instance (c : AX25Call) : Decidable (wfCall c) := by
  unfold wfCall
  infer_instance

lemma write_length {c : AX25Call} (h : c.callsign.length ≤ 6) :
    c.write.length = 7 := by
  simp [AX25Call.write, ljust6]
  omega

lemma getD_append_len {l : List Nat} {b : Nat} {t : List Nat} :
    (l ++ b :: t).getD l.length 0 = b := by
  induction l with
  | nil => rfl
  | cons a l ih => simpa using ih

lemma parse_write_call {c : AX25Call} (h : wfCall c) (rest : List Nat) :
    parse_ax25_call (c.write ++ rest) = some (c, rest) := by
  obtain ⟨h1, h2, h3, h4⟩ := h
  have hmap : ((ljust6 c.callsign).map (fun b => (b <<< 1) % 256)).length = 6 := by
    simp [ljust6_length h1]
  unfold AX25Call.write
  rw [List.append_assoc, List.singleton_append]
  have hlen : 7 ≤ ((ljust6 c.callsign).map (fun b => (b <<< 1) % 256) ++
      ((c.ssid % 16) <<< 1) :: rest).length := by
    simp only [List.length_append, List.length_cons, hmap]
    omega
  unfold parse_ax25_call
  rw [if_pos hlen]
  have htake : ((ljust6 c.callsign).map (fun b => (b <<< 1) % 256) ++
      ((c.ssid % 16) <<< 1) :: rest).take 6 =
      (ljust6 c.callsign).map (fun b => (b <<< 1) % 256) :=
    List.take_left' hmap
  have hgetD : ((ljust6 c.callsign).map (fun b => (b <<< 1) % 256) ++
      ((c.ssid % 16) <<< 1) :: rest).getD 6 0 = (c.ssid % 16) <<< 1 := by
    have := getD_append_len (l := (ljust6 c.callsign).map (fun b => (b <<< 1) % 256))
      (b := (c.ssid % 16) <<< 1) (t := rest)
    rwa [hmap] at this
  have hdrop : ((ljust6 c.callsign).map (fun b => (b <<< 1) % 256) ++
      ((c.ssid % 16) <<< 1) :: rest).drop 7 = rest := by
    have h7 : ((ljust6 c.callsign).map (fun b => (b <<< 1) % 256) ++
        [(c.ssid % 16) <<< 1]).length = 7 := by simp [hmap]
    rw [← List.singleton_append, ← List.append_assoc]
    exact List.drop_left' h7
  rw [htake, hgetD, hdrop]
  have hcall : stripTrailingSpaces
      (((ljust6 c.callsign).map (fun b => (b <<< 1) % 256)).map
        (fun b => (b % 256) >>> 1)) = c.callsign := by
    rw [List.map_map]
    have : (ljust6 c.callsign).map ((fun b => (b % 256) >>> 1) ∘
        (fun b => (b <<< 1) % 256)) = ljust6 c.callsign :=
      map_eq_self_of (fun b hb => shift_unshift (mem_ljust6 hb h2))
    rw [this]
    unfold ljust6
    exact stripTrailingSpaces_pad h3 _
  have hssid : ((((c.ssid % 16) <<< 1) % 256) >>> 1) % 16 = c.ssid :=
    ssid_roundtrip h4
  rw [hcall, hssid]

lemma parse_record_append {d : NodeDestination} {r : List Nat}
    (henc : encodeNodeRecord d = some r)
    (hal : d.dest_alias.length ≤ 6) (hs : pyStrip d.dest_alias = d.dest_alias)
    (hc1 : wfCall d.dest_node) (hc2 : wfCall d.best_neighbor) (hq : d.quality < 256)
    (tail : List Nat) :
    parseNodeRecordWith decodeAsciiReplace (r ++ tail) = some (d, tail) := by
  unfold encodeNodeRecord encodeAsciiOpt at henc
  by_cases hA : (ljust6 d.dest_alias).all (fun b => b < 128)
  · rw [if_pos hA] at henc
    have henc2 : d.dest_node.write ++ ljust6 d.dest_alias ++
        d.best_neighbor.write ++ [d.quality % 256] = r := by
      exact Option.some.inj henc
    subst henc2
    unfold parseNodeRecordWith
    rw [List.append_assoc, List.append_assoc, List.append_assoc,
      parse_write_call hc1]
    dsimp only
    have hlj : (ljust6 d.dest_alias).length = 6 := ljust6_length hal
    rw [List.take_left' hlj, List.drop_left' hlj, parse_write_call hc2]
    dsimp only
    rw [List.singleton_append]
    have hdec : decodeAsciiReplace (ljust6 d.dest_alias) = ljust6 d.dest_alias :=
      decodeAsciiReplace_ascii (by simpa using hA)
    have hstrip : pyStrip (ljust6 d.dest_alias) = d.dest_alias := by
      unfold ljust6
      exact pyStrip_pad hs _
    rw [hdec, hstrip, Nat.mod_eq_of_lt hq]
  · rw [if_neg hA] at henc
    cases henc

lemma encodeNodeRecord_length {d : NodeDestination} {r : List Nat}
    (henc : encodeNodeRecord d = some r) (hal : d.dest_alias.length ≤ 6)
    (h1 : d.dest_node.callsign.length ≤ 6)
    (h2 : d.best_neighbor.callsign.length ≤ 6) : r.length = 21 := by
  unfold encodeNodeRecord encodeAsciiOpt at henc
  by_cases hA : (ljust6 d.dest_alias).all (fun b => b < 128)
  · rw [if_pos hA] at henc
    have henc2 : d.dest_node.write ++ ljust6 d.dest_alias ++
        d.best_neighbor.write ++ [d.quality % 256] = r := by
      exact Option.some.inj henc
    subst henc2
    simp [write_length h1, write_length h2, ljust6_length hal]
  · rw [if_neg hA] at henc
    cases henc

lemma parseNodesLoopF_nil (fuel : Nat) : parseNodesLoopF fuel [] = [] := by
  cases fuel with
  | zero => rfl
  | succ m => simp [parseNodesLoopF, parseNodeRecordWith, parse_ax25_call]

lemma parseNodesLoopF_records :
    ∀ (ds : List NodeDestination) (body : List Nat),
      encodeNodeRecords ds = some body →
      (∀ d ∈ ds, d.dest_alias.length ≤ 6 ∧ pyStrip d.dest_alias = d.dest_alias ∧
        wfCall d.dest_node ∧ wfCall d.best_neighbor ∧ d.quality < 256) →
      ∀ fuel, body.length ≤ fuel →
        parseNodesLoopF fuel body = ds := by
  intro ds
  induction ds with
  | nil =>
    intro body hm hwf fuel hf
    have : body = [] := (Option.some.inj hm).symm
    subst this
    exact parseNodesLoopF_nil fuel
  | cons d ds ih =>
    intro body hm hwf fuel hf
    unfold encodeNodeRecords at hm
    cases he : encodeNodeRecord d with
    | none => rw [he] at hm; cases hm
    | some r =>
      rw [he] at hm
      cases hms : encodeNodeRecords ds with
      | none => rw [hms] at hm; cases hm
      | some rs =>
        rw [hms] at hm
        have hbody : r ++ rs = body := Option.some.inj hm
        subst hbody
        have hd := hwf d (List.mem_cons_self _ _)
        obtain ⟨hal, hstrip, hc1, hc2, hq⟩ := hd
        have hr : r.length = 21 := encodeNodeRecord_length he hal hc1.1 hc2.1
        have hflen : 21 + rs.length ≤ fuel := by
          have := List.length_append r rs
          omega
        cases fuel with
        | zero => omega
        | succ m =>
          simp only [parseNodesLoopF]
          rw [parse_record_append he hal hstrip hc1 hc2 hq rs]
          dsimp only
          rw [ih rs hms (fun x hx => hwf x (List.mem_cons_of_mem _ hx)) m (by omega)]

/-- C5 (amended): decode inverts encode for every well-formed NODES
broadcast whose aliases additionally carry no leading whitespace: encoding
is the 0xFF marker, the six-byte space-padded sending alias, then one
21-byte record per destination in order, and parsing it returns the
original value. (Python `str.strip()` removes leading as well as trailing
whitespace, so an alias with a leading space does not survive the trip;
see the counterexample.) -/
theorem nodes_roundtrip (n : NetRomNodes) (bs : List Nat)
    (henc : encode_netrom_nodes n = some bs)
    (hsa1 : n.sending_alias.length ≤ 6)
    (hsa2 : pyStrip n.sending_alias = n.sending_alias)
    (hd : ∀ d ∈ n.destinations, d.dest_alias.length ≤ 6 ∧
      pyStrip d.dest_alias = d.dest_alias ∧
      wfCall d.dest_node ∧ wfCall d.best_neighbor ∧ d.quality < 256) :
    parse_netrom_nodes bs = some n := by
  unfold encode_netrom_nodes encodeAsciiOpt at henc
  by_cases hA : (ljust6 n.sending_alias).all (fun b => b < 128)
  · rw [if_pos hA] at henc
    cases hms : encodeNodeRecords n.destinations with
    | none => rw [hms] at henc; cases henc
    | some recs =>
      rw [hms] at henc
      have hbs : 0xFF :: (ljust6 n.sending_alias ++ recs) = bs :=
        Option.some.inj henc
      subst hbs
      unfold parse_netrom_nodes
      simp only [if_pos rfl]
      have hlj : (ljust6 n.sending_alias).length = 6 := ljust6_length hsa1
      rw [List.take_left' hlj, List.drop_left' hlj]
      have hdec : decodeAsciiReplace (ljust6 n.sending_alias) = ljust6 n.sending_alias :=
        decodeAsciiReplace_ascii (by simpa using hA)
      have hstrip : pyStrip (ljust6 n.sending_alias) = n.sending_alias := by
        unfold ljust6
        exact pyStrip_pad hsa2 _
      rw [hdec, hstrip]
      unfold parseNodesLoop
      rw [parseNodesLoopF_records n.destinations recs hms hd _ (le_refl _)]
      simp
  · rw [if_neg hA] at henc
    cases henc

/-- The NODES broadcast of the NODES-ingest scenario: sender ALPHA, one
destination B aliased BETA with best neighbor Z at quality 192. -/
def scenarioNodes : NetRomNodes :=
  ⟨[65, 76, 80, 72, 65], [⟨⟨[66], 0⟩, [66, 69, 84, 65], ⟨[90], 0⟩, 192⟩]⟩

/-- C5 witness: the round trip evaluated on the concrete ALPHA/BETA
broadcast. -/
theorem nodes_roundtrip_witness :
    parse_netrom_nodes ((encode_netrom_nodes scenarioNodes).getD []) =
      some scenarioNodes :=
  nodes_roundtrip scenarioNodes ((encode_netrom_nodes scenarioNodes).getD [])
    (by decide) (by decide) (by decide) (by decide)

/-- C5 counterexample: the alias " A" has at most six ASCII characters and
no trailing space, yet `str.strip()` removes its leading space on decode,
so the round trip returns a different broadcast. -/
theorem nodes_roundtrip_leading_space_cex :
    encode_netrom_nodes ⟨[32, 65], []⟩ = some [0xFF, 32, 65, 32, 32, 32, 32] ∧
    parse_netrom_nodes [0xFF, 32, 65, 32, 32, 32, 32] = some ⟨[65], []⟩ ∧
    (⟨[65], []⟩ : NetRomNodes) ≠ ⟨[32, 65], []⟩ := by decide

/-! ## C3: the data-link inbound dispatch and the L3 special handlers -/

/-- The L3 protocol identifier for NET/ROM (0xCF). -/
def netromPid : Nat := 0xCF

/-- An inbound decoded AX.25 packet as seen by the dispatch logic: a UI
frame with its L3 protocol byte and payload, or any other decoded frame.
Fields the dispatch does not inspect are omitted. -/
inductive AX25Packet where
  | uiFrame (dest source : AX25Call) (protocol : Nat) (info : List Nat)
  | otherFrame (dest source : AX25Call)
deriving DecidableEq

/-- The destination call of a packet. -/
def AX25Packet.dest : AX25Packet → AX25Call
  | .uiFrame d _ _ _ => d
  | .otherFrame d _ => d

/-- `AX25Call("NODES")` with the default SSID 0. -/
def nodesCall : AX25Call := ⟨[78, 79, 68, 69, 83], 0⟩

/-- `NetRomNetwork.maybe_handle_special` (network.py lines 247-256): a UI
frame with L3 protocol NET/ROM addressed to NODES is parsed with the
module-level (strict) parse_netrom_nodes, an update_routes task is
scheduled, and False is returned so processing stops; any other packet
returns True. Note the signature: it takes the packet as its only
parameter. -/
def maybe_handle_special (packet : AX25Packet) : Except PyError Bool :=
  match packet with
  | .uiFrame dest _ protocol info =>
    if protocol = netromPid ∧ dest = nodesCall then
      match parse_netrom_nodes_nw info with
      | .error e => .error e
      | .ok _ => .ok false
    else .ok true
  | .otherFrame _ _ => .ok true

/-- A registered L3 handler as a Python callable. The data-link loop calls
`l3.maybe_handle_special(frame.port, packet)` with two positional
arguments; a bound method declared with only the packet parameter raises
TypeError at the call, before its body runs. -/
inductive PyHandler where
  | oneArg (f : AX25Packet → Except PyError Bool)
  | twoArg (f : Nat → AX25Packet → Except PyError Bool)

/-- Calling a handler with the two arguments the loop supplies. -/
def invokeHandler : PyHandler → Nat → AX25Packet → Except PyError Bool
  | .oneArg _, _, _ => .error .typeError
  | .twoArg f, port, p => f port p

/-- The handler loop of `DataLinkManager._loop` (datalink.py lines 64-70):
offer the packet to each registered handler in insertion order; stop at
the first that claims it by returning False. -/
def offerToHandlers : List PyHandler → Nat → AX25Packet → Except PyError Bool
  | [], _, _ => .ok true
  | h :: rest, port, p =>
    match invokeHandler h port p with
    | .error e => .error e
    | .ok true => offerToHandlers rest port p
    | .ok false => .ok false

/-- What `_loop` does with a decoded packet. -/
inductive DispatchResult where
  | handledByL3
  | droppedNotForUs
  | toStateMachine
  | droppedException (e : PyError)
deriving DecidableEq

/-- The dispatch of `DataLinkManager._loop` after a successful decode: the
handler loop runs inside the try block, so an exception is caught, logged
and the frame dropped; if no handler claimed the packet, a packet not
addressed to the local call is discarded with a warning, and otherwise the
packet goes to the AX.25 state machine. -/
def dlLoopDispatch (handlers : List PyHandler) (link_call : AX25Call)
    (port : Nat) (packet : AX25Packet) : DispatchResult :=
  match offerToHandlers handlers port packet with
  | .error e => .droppedException e
  | .ok false => .handledByL3
  | .ok true =>
    if packet.dest = link_call then .toStateMachine else .droppedNotForUs

/-- A well-formed NODES UI frame from X: marker plus padded alias "A". -/
def nodesUiFrame : AX25Packet :=
  .uiFrame nodesCall callX netromPid (0xFF :: ljust6 [65])

/-- C3: `maybe_handle_special` by itself would claim the NODES UI frame
(returning False after parsing it), but the data-link loop invokes every
handler with two positional arguments while the NET/ROM implementation
accepts only the packet, so the call raises TypeError; `_loop` catches it
and drops the frame. The frame indeed never reaches the state machine, but
not because it was claimed: update_routes is never scheduled. -/
theorem nodes_frame_dropped_by_arity_mismatch :
    maybe_handle_special nodesUiFrame = .ok false ∧
    dlLoopDispatch [.oneArg maybe_handle_special] ⟨[66], 0⟩ 0 nodesUiFrame =
      .droppedException .typeError := by
  constructor
  · decide
  · rfl

/-! ## C7: the bounded L3 priority queue

`L3PriorityQueue` wraps `queue.PriorityQueue`, which stores a CPython
`heapq` binary heap in a list. The heap algorithms below are the CPython
ones (`_siftdown`, `_siftup`, `heappush`, `heappop`), with the loops made
structural on a fuel argument that provably bounds their iteration count,
and the item moved in a sift passed explicitly (Python reads it from the
list before looping). All list indexing is in bounds at every call site. -/

/-- `QoS` (tarpn/network/__init__.py): Highest = 0 through Lowest = 4. -/
inductive QoS where
  | Highest
  | Higher
  | Default
  | Lower
  | Lowest
deriving DecidableEq

/-- The IntEnum value of a QoS class. -/
def QoS.val : QoS → Nat
  | .Highest => 0
  | .Higher => 1
  | .Default => 2
  | .Lower => 3
  | .Lowest => 4

/-- `L3Payload`. Only `qos` carries `compare=True`; the opaque L3Address
fields are embedded as plain tags. -/
structure L3Payload where
  source : Nat
  destination : Nat
  protocol : Nat
  buffer : List Nat
  link_id : Nat
  qos : QoS
  reliable : Bool
deriving DecidableEq

instance : Inhabited L3Payload := ⟨⟨0, 0, 0, [], 0, .Default, true⟩⟩

/-- The dataclass `__lt__`: compare the tuple of compare=True fields,
which is just (qos,). -/
def payloadLT (a b : L3Payload) : Bool := a.qos.val < b.qos.val

/-- The comparison key of a payload. -/
def key (p : L3Payload) : Nat := p.qos.val

/-- In-bounds list indexing (`heap[i]` in Python). -/
def gd (h : List L3Payload) (i : Nat) : L3Payload := h.getD i default

/-- CPython `heapq._siftdown(heap, startpos, pos)`: bubble `newitem`
toward the root, moving larger parents down, and place it where it stops.
The position strictly decreases, so a fuel of `pos` suffices. -/
def siftdownLoop : Nat → List L3Payload → Nat → Nat → L3Payload → List L3Payload
  | 0, heap, _, pos, newitem => heap.set pos newitem
  | fuel + 1, heap, startpos, pos, newitem =>
    if startpos < pos then
      let parentpos := (pos - 1) / 2
      let parent := gd heap parentpos
      if payloadLT newitem parent then
        siftdownLoop fuel (heap.set pos parent) startpos parentpos newitem
      else heap.set pos newitem
    else heap.set pos newitem

/-- CPython `heapq._siftup(heap, pos)`: sink the hole at `pos` to a leaf,
always following the smaller child (ties go to the right child), then
place `newitem` in the hole and bubble it back up with `_siftdown`. The
child position strictly increases and stays below `endpos`, so a fuel of
`endpos` suffices. -/
def siftupLoop : Nat → List L3Payload → Nat → Nat → L3Payload → Nat → List L3Payload
  | 0, heap, startpos, pos, newitem, _ =>
    siftdownLoop pos (heap.set pos newitem) startpos pos newitem
  | fuel + 1, heap, startpos, pos, newitem, endpos =>
    let childpos := 2 * pos + 1
    if childpos < endpos then
      let childpos :=
        if childpos + 1 < endpos ∧
            ¬ payloadLT (gd heap childpos) (gd heap (childpos + 1))
        then childpos + 1 else childpos
      siftupLoop fuel (heap.set pos (gd heap childpos)) startpos childpos newitem endpos
    else siftdownLoop pos (heap.set pos newitem) startpos pos newitem

/-- CPython `heapq.heappush`. -/
def heappush (heap : List L3Payload) (item : L3Payload) : List L3Payload :=
  siftdownLoop heap.length (heap ++ [item]) 0 heap.length item

/-- CPython `heapq.heappop`: pop the last element; if the heap is then
nonempty, return the root, move the popped element there and sift it up.
An empty heap raises IndexError, embedded as `none`. -/
def heappop : List L3Payload → Option (L3Payload × List L3Payload)
  | [] => none
  | [x] => some (x, [])
  | x :: y :: rest =>
    let full := x :: y :: rest
    let lastelt := full.getLastD x
    let body := (full.dropLast).set 0 lastelt
    some (x, siftupLoop body.length body 0 0 lastelt body.length)

/-- The queue state: the configured bound and the heap list. -/
structure L3PriorityQueue where
  maxsize : Nat
  heap : List L3Payload
deriving DecidableEq

/-- `L3PriorityQueue(max_size=20)`. -/
def L3PriorityQueue.empty (maxsize : Nat) : L3PriorityQueue := ⟨maxsize, []⟩

/-- `offer`: `put(packet, False)` raises `queue.Full` exactly when
0 < maxsize ≤ qsize, in which case False is returned; otherwise the
payload is pushed and True returned. -/
def L3PriorityQueue.offer (q : L3PriorityQueue) (packet : L3Payload) :
    Bool × L3PriorityQueue :=
  if 0 < q.maxsize ∧ q.maxsize ≤ q.heap.length then (false, q)
  else (true, ⟨q.maxsize, heappush q.heap packet⟩)

/-- `maybe_take`: `get(True, 1.0)` pops the heap root, or returns None
when the queue stays empty through the timeout. -/
def L3PriorityQueue.maybe_take (q : L3PriorityQueue) :
    Option L3Payload × L3PriorityQueue :=
  match heappop q.heap with
  | none => (none, q)
  | some (p, h) => (some p, ⟨q.maxsize, h⟩)

/-- Queue states reachable from a fresh queue by offers and takes. -/
inductive QReachable : L3PriorityQueue → Prop where
  | empty (maxsize : Nat) : QReachable ⟨maxsize, []⟩
  | offer (q : L3PriorityQueue) (p : L3Payload) :
      QReachable q → QReachable (q.offer p).2
  | take (q : L3PriorityQueue) :
      QReachable q → QReachable q.maybe_take.2

/-- A payload with default QoS, distinguishable by its link id. -/
def pl (i : Nat) : L3Payload := ⟨0, 0, 0, [], i, .Default, true⟩

/-- Four same-QoS payloads offered in order 0,1,2,3. -/
def q4 : L3PriorityQueue :=
  (((((L3PriorityQueue.empty 20).offer (pl 0)).2.offer (pl 1)).2.offer
    (pl 2)).2.offer (pl 3)).2

/-- C7 counterexample: with four equal-QoS payloads enqueued in order
0,1,2,3, the first dequeue returns payload 0 but the second returns
payload 2, enqueued after payload 1: the binary heap is not stable, so
FIFO order within a QoS class is violated. -/
theorem l3pq_fifo_violation_cex :
    q4.maybe_take.1 = some (pl 0) ∧
    q4.maybe_take.2.maybe_take.1 = some (pl 2) ∧
    pl 2 ≠ pl 1 := by decide

/-! Heap index lemmas. -/

lemma gd_set_self {h : List L3Payload} {i : Nat} {v : L3Payload}
    (hi : i < h.length) : gd (h.set i v) i = v := by
  induction h generalizing i with
  | nil => simp at hi
  | cons a t ih =>
    cases i with
    | zero => rfl
    | succ n =>
      simp only [List.set_cons_succ, gd, List.getD_cons_succ]
      exact ih (by simpa using hi)

lemma gd_set_ne {h : List L3Payload} {i j : Nat} {v : L3Payload}
    (hij : i ≠ j) : gd (h.set i v) j = gd h j := by
  induction h generalizing i j with
  | nil => simp [List.set]
  | cons a t ih =>
    cases i with
    | zero =>
      cases j with
      | zero => exact absurd rfl hij
      | succ m => simp [gd, List.getD_cons_succ]
    | succ n =>
      cases j with
      | zero => simp [gd, List.getD_cons_zero]
      | succ m =>
        simp only [List.set_cons_succ, gd, List.getD_cons_succ]
        exact ih (by omega)

lemma gd_append_lt {h t : List L3Payload} {i : Nat} (hi : i < h.length) :
    gd (h ++ t) i = gd h i := by
  induction h generalizing i with
  | nil => simp at hi
  | cons a l ih =>
    cases i with
    | zero => rfl
    | succ n =>
      simp only [List.cons_append, gd, List.getD_cons_succ]
      exact ih (by simpa using hi)

lemma gd_mem {h : List L3Payload} {i : Nat} (hi : i < h.length) : gd h i ∈ h := by
  induction h generalizing i with
  | nil => simp at hi
  | cons a t ih =>
    cases i with
    | zero => simp [gd]
    | succ n =>
      simp only [gd, List.getD_cons_succ]
      exact List.mem_cons_of_mem _ (ih (by simpa using hi))

lemma mem_gd {h : List L3Payload} {x : L3Payload} (hx : x ∈ h) :
    ∃ i, i < h.length ∧ gd h i = x := by
  induction h with
  | nil => cases hx
  | cons a t ih =>
    rcases List.mem_cons.mp hx with h1 | h1
    · exact ⟨0, by simp, by simp [gd, h1]⟩
    · obtain ⟨i, hi, he⟩ := ih h1
      exact ⟨i + 1, by simpa using hi, by simpa [gd, List.getD_cons_succ] using he⟩

lemma payloadLT_true_iff {a b : L3Payload} :
    payloadLT a b = true ↔ key a < key b := by
  simp [payloadLT, key]

lemma payloadLT_false_iff {a b : L3Payload} :
    payloadLT a b = false ↔ key b ≤ key a := by
  simp [payloadLT, key]

/-- The binary-heap invariant: every entry is at least its parent. -/
def HeapInv (h : List L3Payload) : Prop :=
  ∀ c, 0 < c → c < h.length → key (gd h ((c - 1) / 2)) ≤ key (gd h c)

/-- The invariant maintained while `_siftdown` bubbles `newitem` up from
`pos`: viewing the heap with `newitem` placed at `pos`, every entry except
`pos` is at least its parent, and the children of `pos` are at least the
grandparent of `pos`. -/
def SDInv (heap : List L3Payload) (pos : Nat) (newitem : L3Payload) : Prop :=
  (∀ c, 0 < c → c < heap.length → c ≠ pos →
    key (gd (heap.set pos newitem) ((c - 1) / 2)) ≤
      key (gd (heap.set pos newitem) c)) ∧
  (0 < pos → ∀ c, c < heap.length → (c = 2 * pos + 1 ∨ c = 2 * pos + 2) →
    key (gd (heap.set pos newitem) ((pos - 1) / 2)) ≤
      key (gd (heap.set pos newitem) c))

lemma heapInv_set_of_exit {heap : List L3Payload} {pos : Nat}
    {newitem : L3Payload} (hlen : pos < heap.length)
    (hinv : SDInv heap pos newitem)
    (hexit : pos = 0 ∨ key (gd heap ((pos - 1) / 2)) ≤ key newitem) :
    HeapInv (heap.set pos newitem) := by
  intro c hc0 hclen
  rw [List.length_set] at hclen
  by_cases hcp : c = pos
  · subst hcp
    rcases hexit with h0 | hle
    · omega
    · rw [gd_set_ne (by omega : c ≠ (c - 1) / 2), gd_set_self hlen]
      exact hle
  · exact hinv.1 c hc0 hclen hcp

lemma sdinv_step {heap : List L3Payload} {pos : Nat} {newitem : L3Payload}
    (hpos : 0 < pos) (hlen : pos < heap.length) (hinv : SDInv heap pos newitem)
    (hkey : key newitem < key (gd heap ((pos - 1) / 2))) :
    SDInv (heap.set pos (gd heap ((pos - 1) / 2))) ((pos - 1) / 2) newitem := by
  obtain ⟨inv1, inv2⟩ := hinv
  set pp := (pos - 1) / 2 with hppdef
  have hpplt : pp < pos := by omega
  have hpplen : pp < heap.length := by omega
  have E : ∀ j, j ≠ pos → j ≠ pp →
      gd ((heap.set pos (gd heap pp)).set pp newitem) j = gd heap j := by
    intro j h1 h2
    rw [gd_set_ne (fun h => h2 h.symm), gd_set_ne (fun h => h1 h.symm)]
  have Epp : gd ((heap.set pos (gd heap pp)).set pp newitem) pp = newitem :=
    gd_set_self (by rw [List.length_set]; omega)
  have Epos : gd ((heap.set pos (gd heap pp)).set pp newitem) pos = gd heap pp := by
    rw [gd_set_ne (by omega : pp ≠ pos), gd_set_self hlen]
  have F : ∀ j, j ≠ pos → gd (heap.set pos newitem) j = gd heap j := by
    intro j h1
    rw [gd_set_ne (fun h => h1 h.symm)]
  constructor
  · intro c hc0 hclen hcne
    rw [List.length_set] at hclen
    by_cases hcp : c = pos
    · subst hcp
      rw [← hppdef, Epp, Epos]
      exact le_of_lt hkey
    · by_cases hcc : (c - 1) / 2 = pos
      · have hch : c = 2 * pos + 1 ∨ c = 2 * pos + 2 := by omega
        have hcgt : pos < c := by omega
        have h2 := inv2 hpos c (by omega) hch
        rw [F pp (by omega), F c hcp] at h2
        rw [hcc, Epos, E c hcp (by omega)]
        exact h2
      · by_cases hcpp2 : (c - 1) / 2 = pp
        · have h1 := inv1 c hc0 (by omega) hcp
          rw [F c hcp, hcpp2, F pp (by omega)] at h1
          rw [hcpp2, Epp, E c hcp hcne]
          exact le_trans (le_of_lt hkey) h1
        · have h1 := inv1 c hc0 (by omega) hcp
          rw [F c hcp, F ((c - 1) / 2) hcc] at h1
          rw [E c hcp hcne, E ((c - 1) / 2) hcc hcpp2]
          exact h1
  · intro hpp0 c hclen hch
    rw [List.length_set] at hclen
    have hgne1 : (pp - 1) / 2 ≠ pos := by omega
    have hgne2 : (pp - 1) / 2 ≠ pp := by omega
    rw [E ((pp - 1) / 2) hgne1 hgne2]
    by_cases hcp : c = pos
    · subst hcp
      rw [Epos]
      have h1 := inv1 pp hpp0 (by omega) (by omega)
      rw [F pp (by omega), F ((pp - 1) / 2) hgne1] at h1
      exact h1
    · have hcnepp : c ≠ pp := by omega
      rw [E c hcp hcnepp]
      have h1 := inv1 c (by omega) (by omega) hcp
      have hpc : (c - 1) / 2 = pp := by omega
      rw [F c hcp, hpc, F pp (by omega)] at h1
      have h2 := inv1 pp hpp0 (by omega) (by omega)
      rw [F pp (by omega), F ((pp - 1) / 2) hgne1] at h2
      exact le_trans h2 h1

lemma siftdownLoop_spec : ∀ (fuel : Nat) (heap : List L3Payload) (pos : Nat)
    (newitem : L3Payload), pos ≤ fuel → pos < heap.length →
    SDInv heap pos newitem →
    HeapInv (siftdownLoop fuel heap 0 pos newitem) ∧
    (siftdownLoop fuel heap 0 pos newitem).length = heap.length := by
  intro fuel
  induction fuel with
  | zero =>
    intro heap pos newitem hf hlen hinv
    have hp0 : pos = 0 := by omega
    subst hp0
    simp only [siftdownLoop]
    exact ⟨heapInv_set_of_exit hlen hinv (Or.inl rfl), by simp⟩
  | succ m ih =>
    intro heap pos newitem hf hlen hinv
    by_cases hpos : 0 < pos
    · simp only [siftdownLoop, if_pos hpos]
      by_cases hlt : payloadLT newitem (gd heap ((pos - 1) / 2)) = true
      · rw [if_pos hlt]
        have hkey : key newitem < key (gd heap ((pos - 1) / 2)) :=
          payloadLT_true_iff.mp hlt
        have hstep := sdinv_step hpos hlen hinv hkey
        have hplen : (pos - 1) / 2 < (heap.set pos (gd heap ((pos - 1) / 2))).length := by
          rw [List.length_set]
          omega
        have hrec := ih (heap.set pos (gd heap ((pos - 1) / 2))) ((pos - 1) / 2)
          newitem (by omega) hplen hstep
        refine ⟨hrec.1, ?_⟩
        rw [hrec.2, List.length_set]
      · rw [if_neg hlt]
        have hfalse : payloadLT newitem (gd heap ((pos - 1) / 2)) = false := by
          cases hv : payloadLT newitem (gd heap ((pos - 1) / 2)) with
          | false => rfl
          | true => exact absurd hv hlt
        exact ⟨heapInv_set_of_exit hlen hinv
          (Or.inr (payloadLT_false_iff.mp hfalse)), by simp⟩
    · simp only [siftdownLoop, if_neg hpos]
      have hp0 : pos = 0 := by omega
      subst hp0
      exact ⟨heapInv_set_of_exit hlen hinv (Or.inl rfl), by simp⟩

/-- The invariant maintained while `_siftup` sinks the hole at `pos`:
every entry not at `pos` and not a child of `pos` is at least its parent,
and the children of `pos` are at least the grandparent of `pos`. -/
def SUInv (heap : List L3Payload) (pos endpos : Nat) : Prop :=
  (∀ c, 0 < c → c < endpos → c ≠ pos → (c - 1) / 2 ≠ pos →
    key (gd heap ((c - 1) / 2)) ≤ key (gd heap c)) ∧
  (0 < pos → ∀ c, c < endpos → (c - 1) / 2 = pos →
    key (gd heap ((pos - 1) / 2)) ≤ key (gd heap c))

lemma suinv_exit {heap : List L3Payload} {pos : Nat} (newitem : L3Payload)
    {endpos : Nat} (hend : endpos = heap.length) (hlen : pos < endpos)
    (hnochild : ¬ 2 * pos + 1 < endpos) (hinv : SUInv heap pos endpos) :
    SDInv (heap.set pos newitem) pos newitem := by
  obtain ⟨inv1, inv2⟩ := hinv
  constructor
  · intro c hc0 hclen hcne
    rw [List.length_set] at hclen
    simp only [List.set_set]
    have hpcne : (c - 1) / 2 ≠ pos := by omega
    rw [gd_set_ne (fun he => hpcne he.symm), gd_set_ne (fun he => hcne he.symm)]
    exact inv1 c hc0 (by omega) hcne hpcne
  · intro hpos0 c hclen hch
    rw [List.length_set] at hclen
    exfalso
    rcases hch with he | he <;> omega

lemma suinv_step {heap : List L3Payload} {pos endpos cstar : Nat}
    (hend : endpos = heap.length) (hlen : pos < endpos)
    (hcstar : cstar = 2 * pos + 1 ∨ cstar = 2 * pos + 2)
    (hcstarlt : cstar < endpos)
    (hmin : ∀ s, s < endpos → (s = 2 * pos + 1 ∨ s = 2 * pos + 2) →
      key (gd heap cstar) ≤ key (gd heap s))
    (hinv : SUInv heap pos endpos) :
    SUInv (heap.set pos (gd heap cstar)) cstar endpos := by
  obtain ⟨inv1, inv2⟩ := hinv
  have hposlt : pos < cstar := by omega
  have F : ∀ j, j ≠ pos → gd (heap.set pos (gd heap cstar)) j = gd heap j :=
    fun j hj => gd_set_ne (fun he => hj he.symm)
  have Fpos : gd (heap.set pos (gd heap cstar)) pos = gd heap cstar :=
    gd_set_self (by omega)
  constructor
  · intro c hc0 hclen hcne hpcne
    by_cases hcp : c = pos
    · subst hcp
      rw [F ((c - 1) / 2) (by omega), Fpos]
      exact inv2 hc0 cstar hcstarlt (by omega)
    · by_cases hpc : (c - 1) / 2 = pos
      · rw [hpc, Fpos, F c hcp]
        exact hmin c hclen (by omega)
      · rw [F c hcp, F ((c - 1) / 2) hpc]
        exact inv1 c hc0 hclen hcp hpc
  · intro hcstar0 c hclen hpc
    have hpcs : (cstar - 1) / 2 = pos := by omega
    have hcgt : cstar < c := by omega
    rw [hpcs, Fpos, F c (by omega)]
    have h1 := inv1 c (by omega) hclen (by omega) (by omega)
    rw [hpc] at h1
    exact h1

lemma siftupLoop_spec : ∀ (fuel : Nat) (heap : List L3Payload) (pos : Nat)
    (newitem : L3Payload) (endpos : Nat),
    endpos = heap.length → pos < endpos → endpos ≤ fuel + pos →
    SUInv heap pos endpos →
    HeapInv (siftupLoop fuel heap 0 pos newitem endpos) ∧
    (siftupLoop fuel heap 0 pos newitem endpos).length = heap.length := by
  intro fuel
  induction fuel with
  | zero =>
    intro heap pos newitem endpos hend hlen hf hinv
    exact absurd hlen (by omega)
  | succ m ih =>
    intro heap pos newitem endpos hend hlen hf hinv
    simp only [siftupLoop]
    by_cases hchild : 2 * pos + 1 < endpos
    · rw [if_pos hchild]
      by_cases hsel : 2 * pos + 1 + 1 < endpos ∧
          ¬ payloadLT (gd heap (2 * pos + 1)) (gd heap (2 * pos + 1 + 1)) = true
      · rw [if_pos hsel]
        have hmin : ∀ s, s < endpos → (s = 2 * pos + 1 ∨ s = 2 * pos + 2) →
            key (gd heap (2 * pos + 1 + 1)) ≤ key (gd heap s) := by
          intro s hs hsch
          rcases hsch with he | he
          · subst he
            have hfalse : payloadLT (gd heap (2 * pos + 1)) (gd heap (2 * pos + 1 + 1)) = false := by
              cases hv : payloadLT (gd heap (2 * pos + 1)) (gd heap (2 * pos + 1 + 1)) with
              | false => rfl
              | true => exact absurd hv hsel.2
            exact payloadLT_false_iff.mp hfalse
          · have he2 : s = 2 * pos + 1 + 1 := by omega
            rw [he2]
        have hstep := suinv_step hend hlen (Or.inr (by omega)) hsel.1 hmin hinv
        have hrec := ih (heap.set pos (gd heap (2 * pos + 1 + 1))) (2 * pos + 1 + 1)
          newitem endpos (by rw [List.length_set]; exact hend) hsel.1 (by omega) hstep
        refine ⟨hrec.1, ?_⟩
        rw [hrec.2, List.length_set]
      · rw [if_neg hsel]
        have hmin : ∀ s, s < endpos → (s = 2 * pos + 1 ∨ s = 2 * pos + 2) →
            key (gd heap (2 * pos + 1)) ≤ key (gd heap s) := by
          intro s hs hsch
          rcases hsch with he | he
          · rw [he]
          · by_cases hpl : payloadLT (gd heap (2 * pos + 1)) (gd heap (2 * pos + 1 + 1)) = true
            · have := payloadLT_true_iff.mp hpl
              have he2 : s = 2 * pos + 1 + 1 := by omega
              rw [he2]
              omega
            · exact absurd ⟨by omega, hpl⟩ hsel
        have hstep := suinv_step hend hlen (Or.inl rfl) hchild hmin hinv
        have hrec := ih (heap.set pos (gd heap (2 * pos + 1))) (2 * pos + 1)
          newitem endpos (by rw [List.length_set]; exact hend) hchild (by omega) hstep
        refine ⟨hrec.1, ?_⟩
        rw [hrec.2, List.length_set]
    · rw [if_neg hchild]
      have hsd := suinv_exit newitem hend hlen hchild hinv
      have hspec := siftdownLoop_spec pos (heap.set pos newitem) pos newitem
        (le_refl _) (by rw [List.length_set]; omega) hsd
      refine ⟨hspec.1, ?_⟩
      rw [hspec.2, List.length_set]

lemma heapInv_root_le {h : List L3Payload} (inv : HeapInv h) :
    ∀ i, i < h.length → key (gd h 0) ≤ key (gd h i) := by
  intro i
  induction i using Nat.strong_induction_on with
  | _ i ih =>
    intro hi
    cases Nat.eq_zero_or_pos i with
    | inl h0 => subst h0; exact le_refl _
    | inr hpos =>
      have hp := inv i hpos hi
      have hpar := ih ((i - 1) / 2) (by omega) (by omega)
      exact le_trans hpar hp

lemma mem_siftdownLoop : ∀ (fuel : Nat) (heap : List L3Payload)
    (startpos pos : Nat) (newitem x : L3Payload), pos < heap.length →
    x ∈ siftdownLoop fuel heap startpos pos newitem → x ∈ heap ∨ x = newitem := by
  intro fuel
  induction fuel with
  | zero =>
    intro heap startpos pos newitem x hlen hx
    simp only [siftdownLoop] at hx
    exact List.mem_or_eq_of_mem_set hx
  | succ m ih =>
    intro heap startpos pos newitem x hlen hx
    simp only [siftdownLoop] at hx
    by_cases hsp : startpos < pos
    · rw [if_pos hsp] at hx
      by_cases hlt : payloadLT newitem (gd heap ((pos - 1) / 2)) = true
      · rw [if_pos hlt] at hx
        have hplen : (pos - 1) / 2 < (heap.set pos (gd heap ((pos - 1) / 2))).length := by
          rw [List.length_set]
          omega
        rcases ih _ _ _ _ x hplen hx with h1 | h1
        · rcases List.mem_or_eq_of_mem_set h1 with h2 | h2
          · exact Or.inl h2
          · exact Or.inl (h2 ▸ gd_mem (by omega))
        · exact Or.inr h1
      · rw [if_neg hlt] at hx
        exact List.mem_or_eq_of_mem_set hx
    · rw [if_neg hsp] at hx
      exact List.mem_or_eq_of_mem_set hx

lemma mem_siftupLoop : ∀ (fuel : Nat) (heap : List L3Payload)
    (startpos pos : Nat) (newitem x : L3Payload) (endpos : Nat),
    endpos = heap.length → pos < endpos →
    x ∈ siftupLoop fuel heap startpos pos newitem endpos →
    x ∈ heap ∨ x = newitem := by
  intro fuel
  induction fuel with
  | zero =>
    intro heap startpos pos newitem x endpos hend hlen hx
    simp only [siftupLoop] at hx
    rcases mem_siftdownLoop _ _ _ _ _ x (by rw [List.length_set]; omega) hx with h1 | h1
    · rcases List.mem_or_eq_of_mem_set h1 with h2 | h2
      · exact Or.inl h2
      · exact Or.inr h2
    · exact Or.inr h1
  | succ m ih =>
    intro heap startpos pos newitem x endpos hend hlen hx
    simp only [siftupLoop] at hx
    by_cases hchild : 2 * pos + 1 < endpos
    · rw [if_pos hchild] at hx
      by_cases hsel : 2 * pos + 1 + 1 < endpos ∧
          ¬ payloadLT (gd heap (2 * pos + 1)) (gd heap (2 * pos + 1 + 1)) = true
      · rw [if_pos hsel] at hx
        rcases ih _ _ _ _ x endpos (by rw [List.length_set]; exact hend) hsel.1 hx
          with h1 | h1
        · rcases List.mem_or_eq_of_mem_set h1 with h2 | h2
          · exact Or.inl h2
          · exact Or.inl (h2 ▸ gd_mem (by omega))
        · exact Or.inr h1
      · rw [if_neg hsel] at hx
        rcases ih _ _ _ _ x endpos (by rw [List.length_set]; exact hend) hchild hx
          with h1 | h1
        · rcases List.mem_or_eq_of_mem_set h1 with h2 | h2
          · exact Or.inl h2
          · exact Or.inl (h2 ▸ gd_mem (by omega))
        · exact Or.inr h1
    · rw [if_neg hchild] at hx
      rcases mem_siftdownLoop _ _ _ _ _ x (by rw [List.length_set]; omega) hx with h1 | h1
      · rcases List.mem_or_eq_of_mem_set h1 with h2 | h2
        · exact Or.inl h2
        · exact Or.inr h2
      · exact Or.inr h1

lemma heappush_spec {h : List L3Payload} {x : L3Payload} (inv : HeapInv h) :
    HeapInv (heappush h x) := by
  have hsd : SDInv (h ++ [x]) h.length x := by
    constructor
    · intro c hc0 hclen hcne
      rw [List.length_append, List.length_singleton] at hclen
      have hc : c < h.length := by omega
      have hpc : (c - 1) / 2 < h.length := by omega
      have e1 : gd ((h ++ [x]).set h.length x) c = gd h c := by
        rw [gd_set_ne (by omega), gd_append_lt hc]
      have e2 : gd ((h ++ [x]).set h.length x) ((c - 1) / 2) = gd h ((c - 1) / 2) := by
        rw [gd_set_ne (by omega), gd_append_lt hpc]
      rw [e1, e2]
      exact inv c hc0 hc
    · intro hpos c hclen hch
      rw [List.length_append, List.length_singleton] at hclen
      exfalso
      rcases hch with he | he <;> omega
  exact (siftdownLoop_spec h.length (h ++ [x]) h.length x (le_refl _)
    (by simp) hsd).1

lemma getLastD_mem : ∀ (t : List L3Payload) (a d : L3Payload),
    (a :: t).getLastD d ∈ a :: t := by
  intro t
  induction t with
  | nil => intro a d; simp [List.getLastD]
  | cons b r ih =>
    intro a d
    rw [List.getLastD_cons]
    exact List.mem_cons_of_mem _ (ih b a)

lemma gd_dropLast : ∀ (l : List L3Payload) (i : Nat), i + 1 < l.length →
    gd l.dropLast i = gd l i := by
  intro l
  induction l with
  | nil => intro i hi; simp at hi
  | cons a t ih =>
    intro i hi
    cases t with
    | nil => simp at hi
    | cons b r =>
      cases i with
      | zero => rfl
      | succ n =>
        have h2 : n + 1 < (b :: r).length := by simpa using hi
        show gd (a :: (b :: r).dropLast) (n + 1) = gd (a :: b :: r) (n + 1)
        simp only [gd, List.getD_cons_succ]
        exact ih n h2

lemma heappop_spec {h : List L3Payload} (inv : HeapInv h) {p : L3Payload}
    {h1 : List L3Payload} (hpop : heappop h = some (p, h1)) :
    HeapInv h1 ∧ (∀ x ∈ h, key p ≤ key x) ∧ ∀ x ∈ h1, x ∈ h := by
  cases h with
  | nil => cases hpop
  | cons a t =>
    cases t with
    | nil =>
      simp only [heappop, Option.some.injEq, Prod.mk.injEq] at hpop
      obtain ⟨hp, hh⟩ := hpop
      subst hp
      subst hh
      refine ⟨?_, ?_, by simp⟩
      · intro c hc0 hclen
        simp at hclen
      · intro x hx
        rcases List.mem_cons.mp hx with h1 | h1
        · rw [h1]
        · cases h1
    | cons b r =>
      simp only [heappop, Option.some.injEq, Prod.mk.injEq] at hpop
      obtain ⟨hp, hh⟩ := hpop
      subst hp
      set lastelt := (a :: b :: r).getLastD a with hle
      set body := ((a :: b :: r).dropLast).set 0 lastelt with hbd
      have hbl : body.length = r.length + 1 := by
        rw [hbd]
        simp
      have hsu : SUInv body 0 body.length := by
        constructor
        · intro c hc0 hclen hcne hpcne
          have e1 : gd body c = gd (a :: b :: r) c := by
            rw [hbd, gd_set_ne (by omega : (0 : Nat) ≠ c)]
            exact gd_dropLast _ c (by simp; omega)
          have e2 : gd body ((c - 1) / 2) = gd (a :: b :: r) ((c - 1) / 2) := by
            rw [hbd, gd_set_ne (fun hz => hpcne hz.symm)]
            exact gd_dropLast _ _ (by simp; omega)
          rw [e1, e2]
          exact inv c hc0 (by simp; omega)
        · intro h00
          omega
      have hspec := siftupLoop_spec body.length body 0 lastelt body.length rfl
        (by omega) (by omega) hsu
      rw [hh] at hspec
      refine ⟨hspec.1, ?_, ?_⟩
      · intro x hx
        obtain ⟨i, hi, he⟩ := mem_gd hx
        have hroot := heapInv_root_le inv i hi
        rw [he] at hroot
        exact hroot
      · intro x hx
        have hx2 : x ∈ body ∨ x = lastelt := by
          apply mem_siftupLoop body.length body 0 0 lastelt x body.length rfl (by omega)
          rw [hh]
          exact hx
        rcases hx2 with h2 | h2
        · rw [hbd] at h2
          rcases List.mem_or_eq_of_mem_set h2 with h3 | h3
          · exact (List.dropLast_sublist _).subset h3
          · rw [h3, hle]
            exact getLastD_mem _ _ _
        · rw [h2, hle]
          exact getLastD_mem _ _ _

lemma qreachable_heapInv {q : L3PriorityQueue} (h : QReachable q) :
    HeapInv q.heap := by
  induction h with
  | empty m =>
    intro c hc0 hcl
    simp at hcl
  | offer q p _ ih =>
    by_cases hfull : 0 < q.maxsize ∧ q.maxsize ≤ q.heap.length
    · simp only [L3PriorityQueue.offer, if_pos hfull]
      exact ih
    · simp only [L3PriorityQueue.offer, if_neg hfull]
      exact heappush_spec ih
  | take q _ ih =>
    simp only [L3PriorityQueue.maybe_take]
    cases hpop : heappop q.heap with
    | none => exact ih
    | some pr =>
      obtain ⟨p, hh⟩ := pr
      exact (heappop_spec ih hpop).1

/-- C7 (amended): `offer` returns false exactly when the queue is full
(0 < maxsize ≤ qsize), and on every reachable queue state `maybe_take`
dequeues a payload whose QoS value is at most that of every payload left
in the queue, so higher-QoS payloads always dequeue before lower-QoS ones;
payloads within one QoS class, however, may dequeue out of FIFO order
(see the counterexample), since the binary heap is not stable. -/
theorem l3pq_offer_full_and_priority :
    (∀ (q : L3PriorityQueue) (p : L3Payload),
      (q.offer p).1 = false ↔ 0 < q.maxsize ∧ q.maxsize ≤ q.heap.length) ∧
    (∀ q : L3PriorityQueue, QReachable q → ∀ (p : L3Payload)
      (q1 : L3PriorityQueue), q.maybe_take = (some p, q1) →
      ∀ x ∈ q1.heap, p.qos.val ≤ x.qos.val) := by
  constructor
  · intro q p
    by_cases hfull : 0 < q.maxsize ∧ q.maxsize ≤ q.heap.length
    · simp [L3PriorityQueue.offer, hfull]
    · simp [L3PriorityQueue.offer, hfull]
  · intro q hq p q1 htake x hx
    have hinv := qreachable_heapInv hq
    unfold L3PriorityQueue.maybe_take at htake
    cases hpop : heappop q.heap with
    | none =>
      rw [hpop] at htake
      simp at htake
    | some pr =>
      obtain ⟨p2, h2⟩ := pr
      rw [hpop] at htake
      simp only [Prod.mk.injEq, Option.some.injEq] at htake
      obtain ⟨hp2, hq1⟩ := htake
      subst hp2
      subst hq1
      have hspec := heappop_spec hinv hpop
      exact hspec.2.1 x (hspec.2.2 x hx)

/-- A payload of the highest QoS class. -/
def plHigh : L3Payload := ⟨0, 0, 0, [], 0, .Highest, true⟩

/-- A payload of the lowest QoS class. -/
def plLow : L3Payload := ⟨0, 0, 0, [], 1, .Lowest, true⟩

/-- The queue after offering the low then the high payload. -/
def qHL : L3PriorityQueue :=
  (((L3PriorityQueue.empty 20).offer plLow).2.offer plHigh).2

/-- C7 witness: on the concrete reachable queue holding a Lowest and a
Highest payload, the dequeued payload has QoS at most that of the one left
behind; and offering into a full one-slot queue returns false. -/
theorem l3pq_offer_full_and_priority_witness :
    plHigh.qos.val ≤ plLow.qos.val ∧
    ((⟨1, [plLow]⟩ : L3PriorityQueue).offer plHigh).1 = false := by
  constructor
  · exact l3pq_offer_full_and_priority.2 qHL
      (QReachable.offer _ _ (QReachable.offer _ _ (QReachable.empty 20)))
      plHigh ⟨20, [plLow]⟩ (by decide) plLow (by decide)
  · exact (l3pq_offer_full_and_priority.1 ⟨1, [plLow]⟩ plHigh).mpr (by decide)

end Tarpn
